/-
Verification of the `HashMap` container in `src/hash_map.h`.

The C++ class stores all key/value pairs in a single `std::list` (`body_`),
and for each bucket index keeps an iterator `iters_[i]` to the first list
element whose key hashes to bucket `i` together with a count `sizes_[i]` of
consecutive list elements belonging to that bucket.  Capacity starts at 1 and
is doubled (RESIZE_FACTOR = 2) by `enlarge_hashtable_if_needed`, which every
mutating operation calls first, whenever the element count has reached the
capacity.

Shallow embedding used here:
  * `body_` is a `List (K × V)` in list order.
  * A `std::list` iterator is modelled by its position in the list, with
    `body_.length` playing the role of the `end()` sentinel.  `std::list`
    iterators are stable under insertion and erasure elsewhere in the list;
    in the positional model this stability is expressed by shifting every
    stored position when an element is inserted before it (`+1`) or erased
    before it (`-1`).  The `end()` iterator shifts with the length, which the
    same shift maps correctly.
  * The hash function is modelled as `K → Nat`.  The capacity is always a
    power of two, so reducing the (machine-width) hash modulo the capacity
    agrees with reducing the mathematical hash value.
  * `at` throws `std::out_of_range("Out of range error")`; it is modelled as
    returning `Except String V` with that error string.
-/
import Mathlib

set_option linter.unusedSectionVars false
set_option linter.unusedVariables false

namespace HashMapVerif

/-! ### Positional list primitives

These model `std::list::insert` (insert before a position, new element takes
that position), `std::list::erase` (remove the element at a position) and
assignment through a dereferenced iterator (`it->second = v`, key untouched).
-/

/-- Insert `x` before position `n`; the new element occupies position `n`.
For `n ≥ l.length` (the `end()` sentinel) the element is appended. -/
def insertAt {α : Type} : List α → Nat → α → List α
  | l, 0, x => x :: l
  | [], _ + 1, x => [x]
  | y :: l, n + 1, x => y :: insertAt l n x

/-- Remove the element at position `n` (no-op past the end). -/
def eraseAt {α : Type} : List α → Nat → List α
  | [], _ => []
  | _ :: l, 0 => l
  | y :: l, n + 1 => y :: eraseAt l n

/-- Replace the value component of the pair at position `n` (key is const). -/
def modifyVal {K V : Type} : List (K × V) → Nat → V → List (K × V)
  | [], _, _ => []
  | p :: l, 0, v => (p.1, v) :: l
  | p :: l, n + 1, v => p :: modifyVal l n v

/-! ### The container state (fields of the C++ class) -/

/-- State of the C++ `HashMap` object: the fields `hash`, `hash_map_capacity_`,
`hash_map_size_`, `body_`, `iters_`, `sizes_` of `src/hash_map.h`. -/
structure HashMap (K V : Type) where
  hash : K → Nat
  hash_map_capacity_ : Nat
  hash_map_size_ : Nat
  body_ : List (K × V)
  iters_ : List Nat
  sizes_ : List Nat

/-- `RESIZE_FACTOR` constant of the class. -/
def RESIZE_FACTOR : Nat := 2

variable {K V : Type} [DecidableEq K]

namespace HashMap

/-- The stored bucket-start iterator of bucket `i` (a position into `body_`). -/
def iterAt (m : HashMap K V) (i : Nat) : Nat := m.iters_.getD i 0

/-- The stored element count of bucket `i`. -/
def cntAt (m : HashMap K V) (i : Nat) : Nat := m.sizes_.getD i 0

/-- The bucket index of a key: `hash(k) % hash_map_capacity_`. -/
def bucket (m : HashMap K V) (k : K) : Nat := m.hash k % m.hash_map_capacity_

/-- The `end()` iterator of `body_` in the positional model. -/
def endIter (m : HashMap K V) : Nat := m.body_.length

end HashMap

/-- The scan loop shared by `operator[]`, `at`, `insert`, `erase`, `find`:
starting at position `it`, examine `cnt` consecutive elements and return the
offset `t` of the first one whose key equals `k` (`none` on exhaustion).
Dereferencing past the end of the list is undefined behaviour in the source;
the model then stops with `none` (the invariant rules the case out). -/
def scanFrom : List (K × V) → Nat → Nat → K → Option Nat
  | _, _, 0, _ => none
  | body, it, cnt + 1, k =>
    match body.get? it with
    | some p => if p.1 = k then some 0 else (scanFrom body (it + 1) cnt k).map (· + 1)
    | none => none

namespace HashMap

/-- Common insertion step of `operator[]` and `insert` when the scan found no
entry for the key: `sizes_[ind]++; hash_map_size_++;
iters_[ind] = body_.insert(iters_[ind], p)`.  Inserting before position
`iters_[ind]` puts the new element at that position and shifts every stored
iterator at a position `≥` it (including `end()`) one to the right. -/
def insertNew (m : HashMap K V) (ind : Nat) (p : K × V) : HashMap K V :=
  let it := m.iterAt ind
  { m with
    sizes_ := m.sizes_.set ind (m.cntAt ind + 1)
    hash_map_size_ := m.hash_map_size_ + 1
    body_ := insertAt m.body_ it p
    iters_ := (m.iters_.map fun j => if it ≤ j then j + 1 else j).set ind it }

/-- Body of `operator[]` after the growth check: scan the key's bucket; if
found, the returned reference is the element at position `iters_[ind] + t`;
otherwise insert a default-constructed value at the bucket start and return a
reference to it (position `iters_[ind]`).  Produces the new state and the
position of the referenced element. -/
def indexCore [Inhabited V] (m : HashMap K V) (k : K) : HashMap K V × Nat :=
  let ind := m.bucket k
  let it := m.iterAt ind
  match scanFrom m.body_ it (m.cntAt ind) k with
  | some t => (m, it + t)
  | none => (m.insertNew ind (k, (default : V)), it)

/-- The assignment pattern `(*this)[k] = v` without the growth check: run the
body of `operator[]`, then assign `v` through the returned reference. -/
def indexAssign [Inhabited V] (m : HashMap K V) (k : K) (v : V) : HashMap K V :=
  let r := indexCore m k
  { r.1 with body_ := modifyVal r.1.body_ r.2 v }

/-- `enlarge_hashtable_if_needed`: when the element count has reached the
capacity, double the capacity, reset `body_`, `iters_`, `sizes_` and the size
counter, and reinsert every old element with `(*this)[p.first] = p.second`.
The source reinserts through `operator[]`; its growth check cannot fire during
reinsertion (the running size stays below the doubled capacity in every
reachable state), so the reinsertion is expressed with the growth-free body of
`operator[]` followed by the assignment through the returned reference. -/
def enlarge_hashtable_if_needed [Inhabited V] (m : HashMap K V) : HashMap K V :=
  if m.hash_map_size_ < m.hash_map_capacity_ then m
  else
    let old_body_ := m.body_
    let cap2 := m.hash_map_capacity_ * RESIZE_FACTOR
    let m0 : HashMap K V :=
      { m with
        hash_map_capacity_ := cap2
        body_ := []
        iters_ := List.replicate cap2 0
        sizes_ := List.replicate cap2 0
        hash_map_size_ := 0 }
    old_body_.foldl (fun acc p => indexAssign acc p.1 p.2) m0

/-- `operator[]` (`ValueType& operator[](const KeyType k)`): growth check,
then `indexCore`.  Returns the new state and the position of the referenced
element. -/
def opIndex [Inhabited V] (m : HashMap K V) (k : K) : HashMap K V × Nat :=
  indexCore (enlarge_hashtable_if_needed m) k

/-- Reading through the reference returned by `operator[]`. -/
def opIndexGet [Inhabited V] (m : HashMap K V) (k : K) : HashMap K V × V :=
  let r := m.opIndex k
  (r.1, ((r.1.body_.get? r.2).map Prod.snd).getD default)

/-- Writing through the reference returned by `operator[]`
(the pattern `(*this)[k] = v` used by the constructors and `operator=`). -/
def opIndexSet [Inhabited V] (m : HashMap K V) (k : K) (v : V) : HashMap K V :=
  indexAssign (enlarge_hashtable_if_needed m) k v

/-- `at`: scan the key's bucket without any growth check or mutation; return
the stored value, or throw `std::out_of_range("Out of range error")`. -/
def atVal (m : HashMap K V) (k : K) : Except String V :=
  let ind := m.bucket k
  let it := m.iterAt ind
  match scanFrom m.body_ it (m.cntAt ind) k with
  | some t =>
    match m.body_.get? (it + t) with
    | some p => Except.ok p.2
    | none => Except.error "Out of range error"
  | none => Except.error "Out of range error"

/-- Body of `insert` after the growth check: scan; if the key exists, do
nothing; otherwise insert the given pair at the bucket start. -/
def insertCore (m : HashMap K V) (p : K × V) : HashMap K V :=
  let ind := m.bucket p.1
  match scanFrom m.body_ (m.iterAt ind) (m.cntAt ind) p.1 with
  | some _ => m
  | none => m.insertNew ind p

/-- `insert(std::pair<const KeyType, ValueType> p)`. -/
def insert [Inhabited V] (m : HashMap K V) (p : K × V) : HashMap K V :=
  insertCore (enlarge_hashtable_if_needed m) p

/-- The mutation performed by `erase` once the scan has found the key at
offset `t` in bucket `ind`: erase that list element (for `t = 0` the
bucket-start iterator is replaced by the erase result, i.e. the following
element), decrement the bucket count (resetting the start to `end()` when it
reaches zero) and the size counter.  Erasing at position `pos` shifts every
stored iterator at a position `> pos` one to the left; the erase result is
the element now at `pos`. -/
def eraseFound (m : HashMap K V) (ind : Nat) (t : Nat) : HashMap K V :=
  let it := m.iterAt ind
  let cnt := m.cntAt ind
  let pos := it + t
  let body2 := eraseAt m.body_ pos
  let iters2 := m.iters_.map fun j => if pos < j then j - 1 else j
  let iters3 := if t = 0 then iters2.set ind pos else iters2
  let iters4 := if cnt - 1 = 0 then iters3.set ind body2.length else iters3
  { m with
    body_ := body2
    iters_ := iters4
    sizes_ := m.sizes_.set ind (cnt - 1)
    hash_map_size_ := m.hash_map_size_ - 1 }

/-- Body of `erase` after the growth check: scan; on a match, remove the
matched element (`eraseFound`); otherwise do nothing. -/
def eraseCore (m : HashMap K V) (k : K) : HashMap K V :=
  let ind := m.bucket k
  match scanFrom m.body_ (m.iterAt ind) (m.cntAt ind) k with
  | none => m
  | some t => eraseFound m ind t

/-- `erase(const KeyType k)`. -/
def erase [Inhabited V] (m : HashMap K V) (k : K) : HashMap K V :=
  eraseCore (enlarge_hashtable_if_needed m) k

/-- `find(const KeyType k)`: the position of the entry, or `end()`
(= `body_.length` in the positional model) when absent.  No growth check. -/
def find (m : HashMap K V) (k : K) : Nat :=
  let ind := m.bucket k
  let it := m.iterAt ind
  match scanFrom m.body_ it (m.cntAt ind) k with
  | some t => it + t
  | none => m.endIter

/-- `size()`: the maintained counter `hash_map_size_`. -/
def size (m : HashMap K V) : Nat := m.hash_map_size_

/-- `empty()`: `body_.empty()`. -/
def isEmpty (m : HashMap K V) : Bool := m.body_.isEmpty

/-- Forward iteration from `begin()` to `end()` walks `body_` in order. -/
def toList (m : HashMap K V) : List (K × V) := m.body_

/-- `clear()`: walk `body_` erasing every element while recording its hash,
then reset count and start of each recorded bucket.  Erasing the whole list
front-to-back maps every stored position `j` to `j - length` (the `end()`
sentinel ends at position 0 of the now-empty list). -/
def clear (m : HashMap K V) : HashMap K V :=
  let len := m.body_.length
  let hashes_to_clear := m.body_.map fun p => m.hash p.1
  let st := hashes_to_clear.foldl
    (fun (si : List Nat × List Nat) h =>
      (si.1.set (h % m.hash_map_capacity_) 0,
       si.2.set (h % m.hash_map_capacity_) 0))
    (m.sizes_, m.iters_.map fun j => j - len)
  { m with
    body_ := []
    sizes_ := st.1
    iters_ := st.2
    hash_map_size_ := 0 }

end HashMap

/-- The default-constructed map: capacity 1, empty body, one bucket with
start `end()` (= position 0 of the empty list) and count 0. -/
def mkHashMap (h : K → Nat) : HashMap K V :=
  { hash := h
    hash_map_capacity_ := 1
    hash_map_size_ := 0
    body_ := []
    iters_ := List.replicate 1 0
    sizes_ := List.replicate 1 0 }

/-- The `initializer_list` / range constructors: start empty and run
`(*this)[p.first] = p.second` over the pairs in order (later duplicates
overwrite earlier ones). -/
def fromList [Inhabited V] (h : K → Nat) (L : List (K × V)) : HashMap K V :=
  L.foldl (fun acc p => acc.opIndexSet p.1 p.2) (mkHashMap h)

/-- Folding `insert` over a list of pairs (a sequence of `insert` calls). -/
def insertList [Inhabited V] (m : HashMap K V) (l : List (K × V)) : HashMap K V :=
  l.foldl (fun acc p => acc.insert p) m

/-! ### Lemmas about the positional list primitives -/

theorem insertAt_eq_take_drop {α : Type} (l : List α) (n : Nat) (x : α) :
    insertAt l n x = l.take n ++ x :: l.drop n := by
  induction l generalizing n with
  | nil => cases n <;> simp [insertAt]
  | cons y l ih =>
    cases n with
    | zero => simp [insertAt]
    | succ n => simp [insertAt, ih]

theorem eraseAt_eq_take_drop {α : Type} (l : List α) (n : Nat) :
    eraseAt l n = l.take n ++ l.drop (n + 1) := by
  induction l generalizing n with
  | nil => simp [eraseAt]
  | cons y l ih =>
    cases n with
    | zero => simp [eraseAt]
    | succ n => simp [eraseAt, ih]

theorem length_insertAt {α : Type} (l : List α) (n : Nat) (x : α) (h : n ≤ l.length) :
    (insertAt l n x).length = l.length + 1 := by
  simp [insertAt_eq_take_drop, List.length_take, List.length_drop]
  omega

theorem length_eraseAt {α : Type} (l : List α) (n : Nat) (h : n < l.length) :
    (eraseAt l n).length = l.length - 1 := by
  simp [eraseAt_eq_take_drop, List.length_take, List.length_drop]
  omega

theorem get?_insertAt {α : Type} (l : List α) (n : Nat) (x : α) (h : n ≤ l.length) (q : Nat) :
    (insertAt l n x).get? q =
      if q < n then l.get? q else if q = n then some x else l.get? (q - 1) := by
  have hlt : (l.take n).length = n := by simp [List.length_take]; omega
  rw [insertAt_eq_take_drop]
  by_cases h1 : q < n
  · rw [List.get?_append (by omega), List.get?_take h1, if_pos h1]
  · rw [List.get?_append_right (by omega), if_neg h1, hlt]
    by_cases h2 : q = n
    · subst h2; simp
    · rw [if_neg h2]
      have h3 : q - n = (q - n - 1) + 1 := by omega
      rw [h3]
      simp only [List.get?_cons_succ]
      rw [List.get?_drop]
      congr 1
      omega

theorem get?_eraseAt {α : Type} (l : List α) (n : Nat) (h : n < l.length) (q : Nat) :
    (eraseAt l n).get? q = if q < n then l.get? q else l.get? (q + 1) := by
  have hlt : (l.take n).length = n := by simp [List.length_take]; omega
  rw [eraseAt_eq_take_drop]
  by_cases h1 : q < n
  · rw [List.get?_append (by omega), List.get?_take h1, if_pos h1]
  · rw [List.get?_append_right (by omega), if_neg h1, hlt, List.get?_drop]
    congr 1
    omega

theorem map_insertAt {α β : Type} (f : α → β) (l : List α) (n : Nat) (x : α) :
    (insertAt l n x).map f = insertAt (l.map f) n (f x) := by
  simp [insertAt_eq_take_drop, List.map_take, List.map_drop]

theorem map_eraseAt {α β : Type} (f : α → β) (l : List α) (n : Nat) :
    (eraseAt l n).map f = eraseAt (l.map f) n := by
  simp [eraseAt_eq_take_drop, List.map_take, List.map_drop]

theorem mem_insertAt {α : Type} {y : α} (l : List α) (n : Nat) (x : α) :
    y ∈ insertAt l n x ↔ y = x ∨ y ∈ l := by
  rw [insertAt_eq_take_drop]
  constructor
  · intro hmem
    rcases List.mem_append.1 hmem with h1 | h1
    · exact Or.inr (List.mem_of_mem_take h1)
    · rcases List.mem_cons.1 h1 with h2 | h2
      · exact Or.inl h2
      · exact Or.inr (List.mem_of_mem_drop h2)
  · intro hmem
    rcases hmem with h1 | h1
    · exact List.mem_append.2 (Or.inr (List.mem_cons.2 (Or.inl h1)))
    · rcases List.mem_append.1 (by rw [List.take_append_drop n l]; exact h1 :
        y ∈ l.take n ++ l.drop n) with h2 | h2
      · exact List.mem_append.2 (Or.inl h2)
      · exact List.mem_append.2 (Or.inr (List.mem_cons.2 (Or.inr h2)))

theorem nodup_insertAt {α : Type} {l : List α} {x : α} (n : Nat)
    (hx : x ∉ l) (hl : l.Nodup) : (insertAt l n x).Nodup := by
  rw [insertAt_eq_take_drop, List.nodup_middle, List.nodup_cons,
    List.take_append_drop n l]
  exact ⟨hx, hl⟩

theorem nodup_eraseAt {α : Type} {l : List α} (n : Nat) (hl : l.Nodup) :
    (eraseAt l n).Nodup := by
  refine List.Sublist.nodup ?_ hl
  rw [eraseAt_eq_take_drop]
  have h1 : List.Sublist (l.take n ++ l.drop (n + 1)) (l.take n ++ l.drop n) := by
    have h2 : l.drop (n + 1) = (l.drop n).tail := by
      rw [← List.drop_one, List.drop_drop]
    rw [h2]
    exact List.Sublist.append_left (List.tail_sublist _) _
  have h3 : List.Sublist (l.take n ++ l.drop n) l := by
    rw [List.take_append_drop n l]
  exact h1.trans h3

theorem length_modifyVal {K V : Type} (l : List (K × V)) (n : Nat) (v : V) :
    (modifyVal l n v).length = l.length := by
  induction l generalizing n with
  | nil => simp [modifyVal]
  | cons p l ih =>
    cases n with
    | zero => simp [modifyVal]
    | succ n => simp [modifyVal, ih]

theorem map_fst_modifyVal {K V : Type} (l : List (K × V)) (n : Nat) (v : V) :
    (modifyVal l n v).map Prod.fst = l.map Prod.fst := by
  induction l generalizing n with
  | nil => simp [modifyVal]
  | cons p l ih =>
    cases n with
    | zero => simp [modifyVal]
    | succ n => simp [modifyVal, ih]

theorem get?_modifyVal {K V : Type} (l : List (K × V)) (n : Nat) (v : V) (q : Nat) :
    (modifyVal l n v).get? q =
      if q = n then (l.get? n).map (fun p => (p.1, v)) else l.get? q := by
  induction l generalizing n q with
  | nil => simp [modifyVal]
  | cons p l ih =>
    cases n with
    | zero =>
      cases q with
      | zero => simp [modifyVal]
      | succ q => simp [modifyVal]
    | succ n =>
      cases q with
      | zero => simp [modifyVal]
      | succ q =>
        simp only [modifyVal, List.get?_cons_succ, ih, Nat.succ.injEq]

/-! ### `getD` helpers for the bucket arrays -/

theorem getD_eq_getD_get? (l : List Nat) (n d : Nat) : l.getD n d = (l.get? n).getD d :=
  List.getD_eq_get? l n d

theorem getD_set_self (l : List Nat) (i x d : Nat) (h : i < l.length) :
    (l.set i x).getD i d = x := by
  rw [getD_eq_getD_get?, List.get?_set]
  simp only [if_pos rfl]
  obtain ⟨a, ha⟩ := Option.ne_none_iff_exists'.1 (by rw [List.get?_eq_none]; omega :
    ¬ l.get? i = none)
  rw [ha]
  rfl

theorem getD_set_ne (l : List Nat) {i j : Nat} (x d : Nat) (h : i ≠ j) :
    (l.set i x).getD j d = l.getD j d := by
  rw [getD_eq_getD_get?, getD_eq_getD_get?, List.get?_set, if_neg h]

theorem getD_map_of_lt (f : Nat → Nat) (l : List Nat) {i : Nat} (d : Nat)
    (h : i < l.length) : (l.map f).getD i d = f (l.getD i d) := by
  rw [getD_eq_getD_get?, getD_eq_getD_get?, List.get?_map]
  obtain ⟨a, ha⟩ := Option.ne_none_iff_exists'.1 (by rw [List.get?_eq_none]; omega :
    ¬ l.get? i = none)
  rw [ha]
  rfl

theorem getD_replicate (n x d : Nat) {i : Nat} (h : i < n) :
    (List.replicate n x).getD i d = x := by
  rw [getD_eq_getD_get?, List.get?_eq_getElem?, List.getElem?_replicate, if_pos h]
  rfl

theorem getD_of_length_le (l : List Nat) {i : Nat} (d : Nat) (h : l.length ≤ i) :
    l.getD i d = d := by
  rw [getD_eq_getD_get?, List.get?_len_le h]
  rfl

/-! ### Abstract association-list semantics

`assocFind l k` is the value of the first entry of `l` with key `k`; it is the
observable key-to-value mapping of a container state.  `lastWins l k` is the
value of the last entry of `l` with key `k`; it describes bulk construction
where later pairs overwrite earlier ones. -/

/-- The value of the first entry with key `k` (the container's mapping). -/
def assocFind (l : List (K × V)) (k : K) : Option V :=
  (l.find? fun p => decide (p.1 = k)).map Prod.snd

/-- The value of the last entry with key `k` (bulk-load overwrite semantics). -/
def lastWins (l : List (K × V)) (k : K) : Option V :=
  l.foldl (fun acc p => if p.1 = k then some p.2 else acc) none

theorem assocFind_nil (k : K) : assocFind ([] : List (K × V)) k = none := rfl

theorem assocFind_cons (p : K × V) (l : List (K × V)) (k : K) :
    assocFind (p :: l) k = if p.1 = k then some p.2 else assocFind l k := by
  by_cases h : p.1 = k <;> simp [assocFind, List.find?_cons, h]

theorem isSome_map {α β : Type} (f : α → β) (o : Option α) :
    (o.map f).isSome = o.isSome := by
  cases o <;> rfl

theorem assocFind_isSome_iff (l : List (K × V)) (k : K) :
    (assocFind l k).isSome ↔ k ∈ l.map Prod.fst := by
  unfold assocFind
  rw [isSome_map, List.find?_isSome, List.mem_map]
  constructor
  · rintro ⟨p, hp, hdec⟩
    exact ⟨p, hp, of_decide_eq_true hdec⟩
  · rintro ⟨p, hp, hk⟩
    exact ⟨p, hp, decide_eq_true hk⟩

theorem assocFind_eq_none_iff (l : List (K × V)) (k : K) :
    assocFind l k = none ↔ k ∉ l.map Prod.fst := by
  rw [← assocFind_isSome_iff, ← Option.not_isSome_iff_eq_none]

theorem mem_of_assocFind_eq_some {l : List (K × V)} {k : K} {v : V}
    (h : assocFind l k = some v) : (k, v) ∈ l := by
  unfold assocFind at h
  rw [Option.map_eq_some'] at h
  obtain ⟨p, hp, hsnd⟩ := h
  have hq := List.find?_some hp
  have h1 : p.1 = k := of_decide_eq_true (by simpa using hq)
  have h2 : p = (k, v) := by
    cases p
    simp only [Prod.mk.injEq]
    exact ⟨h1, hsnd⟩
  rw [← h2]
  exact List.mem_of_find?_eq_some hp

theorem assocFind_eq_some_of_mem {l : List (K × V)} {k : K} {v : V}
    (hnd : (l.map Prod.fst).Nodup) (hm : (k, v) ∈ l) : assocFind l k = some v := by
  induction l with
  | nil => simp at hm
  | cons p l ih =>
    rw [List.map_cons, List.nodup_cons] at hnd
    rcases List.mem_cons.1 hm with h1 | h1
    · rw [← h1, assocFind_cons, if_pos rfl]
    · rw [assocFind_cons]
      have hk : k ∈ l.map Prod.fst := List.mem_map.2 ⟨(k, v), h1, rfl⟩
      have hne : p.1 ≠ k := fun h => hnd.1 (h ▸ hk)
      rw [if_neg hne]
      exact ih hnd.2 h1

theorem assocFind_insertAt_of_ne {l : List (K × V)} {x : K × V} {k : K}
    (n : Nat) (hne : x.1 ≠ k) : assocFind (insertAt l n x) k = assocFind l k := by
  unfold assocFind
  rw [insertAt_eq_take_drop]
  conv_rhs => rw [← List.take_append_drop n l]
  rw [List.find?_append, List.find?_append, List.find?_cons]
  have hd : decide (x.1 = k) = false := decide_eq_false hne
  rw [hd]

/-- `foldl` of the last-wins step decomposes through an arbitrary accumulator. -/
theorem lastWins_foldl_or (l : List (K × V)) (k : K) (a : Option V) :
    l.foldl (fun acc p => if p.1 = k then some p.2 else acc) a =
      (lastWins l k).or a := by
  induction l generalizing a with
  | nil => simp [lastWins]
  | cons p l ih =>
    rw [List.foldl_cons]
    rw [ih]
    unfold lastWins
    rw [List.foldl_cons, ih (if p.1 = k then some p.2 else none)]
    rw [Option.or_assoc]
    congr 1
    by_cases h : p.1 = k <;> simp [h]

theorem lastWins_cons (p : K × V) (l : List (K × V)) (k : K) :
    lastWins (p :: l) k = (lastWins l k).or (if p.1 = k then some p.2 else none) := by
  unfold lastWins
  rw [List.foldl_cons]
  have h := lastWins_foldl_or l k (if p.1 = k then some p.2 else none)
  simpa using h

theorem lastWins_eq_none_of_not_mem {l : List (K × V)} {k : K}
    (h : k ∉ l.map Prod.fst) : lastWins l k = none := by
  induction l with
  | nil => rfl
  | cons p l ih =>
    rw [List.map_cons] at h
    rw [lastWins_cons]
    have h1 : p.1 ≠ k := fun he => h (List.mem_cons.2 (Or.inl he.symm))
    have h2 : k ∉ l.map Prod.fst := fun hm => h (List.mem_cons.2 (Or.inr hm))
    rw [ih h2, if_neg h1]
    rfl

theorem lastWins_eq_assocFind {l : List (K × V)} (k : K)
    (hnd : (l.map Prod.fst).Nodup) : lastWins l k = assocFind l k := by
  induction l with
  | nil => rfl
  | cons p l ih =>
    rw [List.map_cons, List.nodup_cons] at hnd
    rw [lastWins_cons, assocFind_cons]
    by_cases h : p.1 = k
    · simp only [if_pos h]
      rw [lastWins_eq_none_of_not_mem (h ▸ hnd.1), Option.none_or]
    · simp only [if_neg h]
      rw [ih hnd.2, Option.or_none]

theorem lastWins_isSome_iff (l : List (K × V)) (k : K) :
    (lastWins l k).isSome ↔ k ∈ l.map Prod.fst := by
  induction l with
  | nil => simp [lastWins]
  | cons p l ih =>
    rw [lastWins_cons, List.map_cons, List.mem_cons]
    by_cases h : p.1 = k
    · rw [if_pos h]
      exact iff_of_true (by cases lastWins l k <;> rfl) (Or.inl h.symm)
    · rw [if_neg h, Option.or_none, ih]
      constructor
      · exact fun hm => Or.inr hm
      · rintro (he | hm)
        · exact absurd he.symm h
        · exact hm

/-! ### The bucket scan loop -/

theorem scanFrom_some_spec {body : List (K × V)} {it cnt : Nat} {k : K} {t : Nat}
    (h : scanFrom body it cnt k = some t) :
    t < cnt ∧ ∃ p, body.get? (it + t) = some p ∧ p.1 = k := by
  induction cnt generalizing it t with
  | zero => simp [scanFrom] at h
  | succ cnt ih =>
    rw [scanFrom] at h
    cases hg : body.get? it with
    | none => rw [hg] at h; simp at h
    | some p =>
      rw [hg] at h
      dsimp only at h
      by_cases hk : p.1 = k
      · rw [if_pos hk] at h
        have ht : t = 0 := by
          have := Option.some.inj h
          omega
        subst ht
        exact ⟨Nat.succ_pos cnt, p, by simpa using hg, hk⟩
      · rw [if_neg hk] at h
        rw [Option.map_eq_some'] at h
        obtain ⟨s, hs, hst⟩ := h
        obtain ⟨hlt, p', hp', hk'⟩ := ih hs
        refine ⟨by omega, p', ?_, hk'⟩
        rw [← hp']
        congr 1
        omega

theorem scanFrom_none_iff {body : List (K × V)} {it cnt : Nat} {k : K}
    (hval : it + cnt ≤ body.length) :
    scanFrom body it cnt k = none ↔
      ∀ t, t < cnt → ∀ p, body.get? (it + t) = some p → p.1 ≠ k := by
  induction cnt generalizing it with
  | zero => simp [scanFrom]
  | succ cnt ih =>
    obtain ⟨p, hp⟩ := Option.ne_none_iff_exists'.1
      (by rw [List.get?_eq_none]; omega : ¬ body.get? it = none)
    rw [scanFrom, hp]
    dsimp only
    by_cases hk : p.1 = k
    · rw [if_pos hk]
      constructor
      · intro h; simp at h
      · intro h
        exact absurd hk (h 0 (Nat.succ_pos cnt) p (by simpa using hp))
    · rw [if_neg hk]
      rw [Option.map_eq_none']
      rw [ih (by omega)]
      constructor
      · intro h t ht q hq
        cases t with
        | zero =>
          rw [Nat.add_zero] at hq
          rw [hp] at hq
          exact (Option.some.inj hq) ▸ hk
        | succ s =>
          refine h s (by omega) q ?_
          rw [← hq]
          congr 1
          omega
      · intro h s hs q hq
        refine h (s + 1) (by omega) q ?_
        rw [← hq]
        congr 1
        omega

/-! ### The representation invariant

Every state reachable by the public operations satisfies: the bucket arrays
have length `hash_map_capacity_` (positive), the size counter equals the list
length, keys are pairwise distinct, and for every bucket `i` the positions
`iters_[i], …, iters_[i] + sizes_[i] - 1` are exactly the positions of the
entries whose key hashes to bucket `i` (with `iters_[i] = end()` when
`sizes_[i] = 0`). -/

structure Inv (m : HashMap K V) : Prop where
  cap_pos : 0 < m.hash_map_capacity_
  iters_len : m.iters_.length = m.hash_map_capacity_
  sizes_len : m.sizes_.length = m.hash_map_capacity_
  size_eq : m.hash_map_size_ = m.body_.length
  nodup : (m.body_.map Prod.fst).Nodup
  run_le : ∀ i, i < m.hash_map_capacity_ → m.iterAt i + m.cntAt i ≤ m.body_.length
  run_mem : ∀ i, i < m.hash_map_capacity_ → ∀ t, t < m.cntAt i →
    ∀ p, m.body_.get? (m.iterAt i + t) = some p → m.bucket p.1 = i
  mem_run : ∀ q p, m.body_.get? q = some p →
    m.iterAt (m.bucket p.1) ≤ q ∧ q < m.iterAt (m.bucket p.1) + m.cntAt (m.bucket p.1)
  empty_end : ∀ i, i < m.hash_map_capacity_ → m.cntAt i = 0 →
    m.iterAt i = m.body_.length

theorem bucket_lt {m : HashMap K V} (hInv : Inv m) (k : K) :
    m.bucket k < m.hash_map_capacity_ :=
  Nat.mod_lt _ hInv.cap_pos

/-- Distinct nonempty bucket runs are separated: the lower one ends before the
higher one starts. -/
theorem run_sep {m : HashMap K V} (hInv : Inv m) {i j : Nat}
    (hi : i < m.hash_map_capacity_) (hj : j < m.hash_map_capacity_) (hij : i ≠ j)
    (hcnt : 0 < m.cntAt i) (hlt : m.iterAt i < m.iterAt j) :
    m.iterAt i + m.cntAt i ≤ m.iterAt j := by
  by_contra hcon
  push_neg at hcon
  have hvalid : m.iterAt j < m.body_.length := by
    have := hInv.run_le i hi
    omega
  obtain ⟨p, hp⟩ := Option.ne_none_iff_exists'.1
    (by rw [List.get?_eq_none]; omega : ¬ m.body_.get? (m.iterAt j) = none)
  have hmi : m.bucket p.1 = i := by
    have h1 : m.iterAt j = m.iterAt i + (m.iterAt j - m.iterAt i) := by omega
    refine hInv.run_mem i hi (m.iterAt j - m.iterAt i) (by omega) p ?_
    rw [← h1]
    exact hp
  have hmj : m.bucket p.1 = j := by
    rcases Nat.eq_zero_or_pos (m.cntAt j) with h0 | h0
    · exact absurd (hInv.empty_end j hj h0) (by omega)
    · refine hInv.run_mem j hj 0 h0 p ?_
      rw [Nat.add_zero]
      exact hp
  exact hij (hmi ▸ hmj)

/-- Distinct nonempty bucket runs do not share their start position. -/
theorem run_start_ne {m : HashMap K V} (hInv : Inv m) {i j : Nat}
    (hi : i < m.hash_map_capacity_) (hj : j < m.hash_map_capacity_) (hij : i ≠ j)
    (hci : 0 < m.cntAt i) (hcj : 0 < m.cntAt j) : m.iterAt i ≠ m.iterAt j := by
  intro heq
  have hvalid : m.iterAt i < m.body_.length := by
    have := hInv.run_le i hi
    omega
  obtain ⟨p, hp⟩ := Option.ne_none_iff_exists'.1
    (by rw [List.get?_eq_none]; omega : ¬ m.body_.get? (m.iterAt i) = none)
  have hmi : m.bucket p.1 = i := by
    refine hInv.run_mem i hi 0 hci p ?_
    rw [Nat.add_zero]; exact hp
  have hmj : m.bucket p.1 = j := by
    refine hInv.run_mem j hj 0 hcj p ?_
    rw [Nat.add_zero, ← heq]; exact hp
  exact hij (hmi ▸ hmj)

/-- Two distinct nonempty runs: one lies entirely below the other. -/
theorem run_trichot {m : HashMap K V} (hInv : Inv m) {i j : Nat}
    (hi : i < m.hash_map_capacity_) (hj : j < m.hash_map_capacity_) (hij : i ≠ j)
    (hci : 0 < m.cntAt i) (hcj : 0 < m.cntAt j) :
    m.iterAt i + m.cntAt i ≤ m.iterAt j ∨ m.iterAt j + m.cntAt j ≤ m.iterAt i := by
  rcases Nat.lt_trichotomy (m.iterAt i) (m.iterAt j) with h | h | h
  · exact Or.inl (run_sep hInv hi hj hij hci h)
  · exact absurd h (run_start_ne hInv hi hj hij hci hcj)
  · exact Or.inr (run_sep hInv hj hi (Ne.symm hij) hcj h)

/-! ### The scan in a well-formed state agrees with the association list -/

theorem mem_keys_iff_get? {l : List (K × V)} {k : K} :
    k ∈ l.map Prod.fst ↔ ∃ q p, l.get? q = some p ∧ p.1 = k := by
  rw [List.mem_map]
  constructor
  · rintro ⟨p, hp, hk⟩
    obtain ⟨q, hq⟩ := List.mem_iff_get?.1 hp
    exact ⟨q, p, hq, hk⟩
  · rintro ⟨q, p, hq, hk⟩
    exact ⟨p, List.mem_iff_get?.2 ⟨q, hq⟩, hk⟩

theorem scan_none_iff_not_mem {m : HashMap K V} (hInv : Inv m) (k : K) :
    scanFrom m.body_ (m.iterAt (m.bucket k)) (m.cntAt (m.bucket k)) k = none ↔
      k ∉ m.body_.map Prod.fst := by
  have hval := hInv.run_le (m.bucket k) (bucket_lt hInv k)
  rw [scanFrom_none_iff hval]
  constructor
  · intro h hk
    obtain ⟨q, p, hq, hpk⟩ := mem_keys_iff_get?.1 hk
    have hb : m.bucket p.1 = m.bucket k := by rw [hpk]
    have hrun := hInv.mem_run q p hq
    rw [hb] at hrun
    refine h (q - m.iterAt (m.bucket k)) (by omega) p ?_ hpk
    rw [← hq]
    congr 1
    omega
  · intro h t ht p hp hpk
    exact h (mem_keys_iff_get?.2 ⟨m.iterAt (m.bucket k) + t, p, hp, hpk⟩)

theorem scan_some_spec {m : HashMap K V} (hInv : Inv m) {k : K} {t : Nat}
    (h : scanFrom m.body_ (m.iterAt (m.bucket k)) (m.cntAt (m.bucket k)) k = some t) :
    t < m.cntAt (m.bucket k) ∧
      ∃ v, m.body_.get? (m.iterAt (m.bucket k) + t) = some (k, v) ∧
        assocFind m.body_ k = some v := by
  obtain ⟨ht, p, hp, hpk⟩ := scanFrom_some_spec h
  refine ⟨ht, p.2, ?_, ?_⟩
  · rw [hp]
    cases p
    simp_all
  · refine assocFind_eq_some_of_mem hInv.nodup ?_
    have hm := List.mem_iff_get?.2 ⟨_, hp⟩
    have h2 : p = (k, p.2) := by
      cases p
      simp_all
    exact h2 ▸ hm

/-- The scan succeeds exactly on present keys. -/
theorem scan_isSome_iff_mem {m : HashMap K V} (hInv : Inv m) (k : K) :
    (scanFrom m.body_ (m.iterAt (m.bucket k)) (m.cntAt (m.bucket k)) k).isSome ↔
      k ∈ m.body_.map Prod.fst := by
  constructor
  · intro h
    by_contra hk
    rw [(scan_none_iff_not_mem hInv k).2 hk] at h
    exact Bool.noConfusion h
  · intro h
    by_contra hs
    exact ((scan_none_iff_not_mem hInv k).1 (Option.not_isSome_iff_eq_none.1
      (by simpa using hs))) h

/-! ### Effect of the shared insertion step `insertNew` -/

theorem insertNew_body (m : HashMap K V) (ind : Nat) (p : K × V) :
    (m.insertNew ind p).body_ = insertAt m.body_ (m.iterAt ind) p := rfl

theorem insertNew_cap (m : HashMap K V) (ind : Nat) (p : K × V) :
    (m.insertNew ind p).hash_map_capacity_ = m.hash_map_capacity_ := rfl

theorem insertNew_hash (m : HashMap K V) (ind : Nat) (p : K × V) :
    (m.insertNew ind p).hash = m.hash := rfl

theorem insertNew_size (m : HashMap K V) (ind : Nat) (p : K × V) :
    (m.insertNew ind p).hash_map_size_ = m.hash_map_size_ + 1 := rfl

theorem insertNew_sizes_len (m : HashMap K V) (ind : Nat) (p : K × V) :
    (m.insertNew ind p).sizes_.length = m.sizes_.length := by
  simp [HashMap.insertNew]

theorem insertNew_iters_len (m : HashMap K V) (ind : Nat) (p : K × V) :
    (m.insertNew ind p).iters_.length = m.iters_.length := by
  simp [HashMap.insertNew]

theorem insertNew_iterAt_self (m : HashMap K V) (ind : Nat) (p : K × V)
    (h : ind < m.iters_.length) : (m.insertNew ind p).iterAt ind = m.iterAt ind := by
  simp only [HashMap.insertNew, HashMap.iterAt]
  exact getD_set_self _ _ _ _ (by simpa using h)

theorem insertNew_iterAt_ne (m : HashMap K V) (ind : Nat) (p : K × V) {i : Nat}
    (h : i ≠ ind) (hi : i < m.iters_.length) :
    (m.insertNew ind p).iterAt i =
      if m.iterAt ind ≤ m.iterAt i then m.iterAt i + 1 else m.iterAt i := by
  simp only [HashMap.insertNew, HashMap.iterAt]
  rw [getD_set_ne _ _ _ (Ne.symm h), getD_map_of_lt _ _ _ hi]

theorem insertNew_cntAt_self (m : HashMap K V) (ind : Nat) (p : K × V)
    (h : ind < m.sizes_.length) : (m.insertNew ind p).cntAt ind = m.cntAt ind + 1 := by
  simp only [HashMap.insertNew, HashMap.cntAt]
  exact getD_set_self _ _ _ _ h

theorem insertNew_cntAt_ne (m : HashMap K V) (ind : Nat) (p : K × V) {i : Nat}
    (h : i ≠ ind) : (m.insertNew ind p).cntAt i = m.cntAt i := by
  simp only [HashMap.insertNew, HashMap.cntAt]
  exact getD_set_ne _ _ _ (Ne.symm h)

/-- The insertion step preserves the representation invariant when the key is
new and the bucket index is the key's bucket. -/
theorem Inv_insertNew {m : HashMap K V} (hInv : Inv m) {p : K × V}
    (habs : p.1 ∉ m.body_.map Prod.fst) :
    Inv (m.insertNew (m.bucket p.1) p) := by
  have hind : m.bucket p.1 < m.hash_map_capacity_ := bucket_lt hInv p.1
  set ind := m.bucket p.1 with hind_def
  set it := m.iterAt ind with hit_def
  set cnt := m.cntAt ind with hcnt_def
  set L := m.body_.length with hL_def
  have hrun := hInv.run_le ind hind
  have hit_le : it ≤ L := by omega
  have hitl : ind < m.iters_.length := by rw [hInv.iters_len]; exact hind
  have hszl : ind < m.sizes_.length := by rw [hInv.sizes_len]; exact hind
  have hlen' : (m.insertNew ind p).body_.length = L + 1 := by
    rw [insertNew_body]
    exact length_insertAt _ _ _ hit_le
  have hget : ∀ q, (m.insertNew ind p).body_.get? q =
      if q < it then m.body_.get? q
      else if q = it then some p else m.body_.get? (q - 1) := by
    intro q
    rw [insertNew_body]
    exact get?_insertAt _ _ _ hit_le q
  have hItSelf : (m.insertNew ind p).iterAt ind = it :=
    insertNew_iterAt_self m ind p hitl
  have hItNe : ∀ i, i ≠ ind → i < m.hash_map_capacity_ →
      (m.insertNew ind p).iterAt i =
        if it ≤ m.iterAt i then m.iterAt i + 1 else m.iterAt i := by
    intro i hi hic
    exact insertNew_iterAt_ne m ind p hi (by rw [hInv.iters_len]; exact hic)
  have hCntSelf : (m.insertNew ind p).cntAt ind = cnt + 1 :=
    insertNew_cntAt_self m ind p hszl
  have hCntNe : ∀ i, i ≠ ind → (m.insertNew ind p).cntAt i = m.cntAt i :=
    fun i hi => insertNew_cntAt_ne m ind p hi
  have hBuck : ∀ x, (m.insertNew ind p).bucket x = m.bucket x := fun _ => rfl
  refine ⟨hInv.cap_pos, ?_, ?_, ?_, ?_, ?_, ?_, ?_, ?_⟩
  · rw [insertNew_iters_len, hInv.iters_len]; rfl
  · rw [insertNew_sizes_len, hInv.sizes_len]; rfl
  · rw [insertNew_size, hlen', hInv.size_eq]
  · rw [insertNew_body, map_insertAt]
    exact nodup_insertAt _ habs hInv.nodup
  · -- run_le
    intro i hi
    rw [hlen']
    by_cases hieq : i = ind
    · subst hieq
      rw [hItSelf, hCntSelf]
      omega
    · rw [hItNe i hieq hi, hCntNe i hieq]
      have := hInv.run_le i hi
      by_cases hle : it ≤ m.iterAt i
      · rw [if_pos hle]; omega
      · rw [if_neg hle]; omega
  · -- run_mem
    intro i hi t ht p' hp'
    rw [hBuck]
    by_cases hieq : i = ind
    · subst hieq
      rw [hItSelf] at hp'
      rw [hCntSelf] at ht
      cases t with
      | zero =>
        rw [Nat.add_zero, hget, if_neg (by omega), if_pos rfl] at hp'
        have hpp : p = p' := Option.some.inj hp'
        rw [← hpp, hind_def]
      | succ s =>
        rw [hget, if_neg (by omega), if_neg (by omega)] at hp'
        have hs : it + (s + 1) - 1 = it + s := by omega
        rw [hs] at hp'
        exact hInv.run_mem ind hind s (by omega) p' hp'
    · rw [hCntNe i hieq] at ht
      rw [hItNe i hieq hi] at hp'
      by_cases hle : it ≤ m.iterAt i
      · rw [if_pos hle] at hp'
        rw [hget, if_neg (by omega), if_neg (by omega)] at hp'
        have hs : m.iterAt i + 1 + t - 1 = m.iterAt i + t := by omega
        rw [hs] at hp'
        exact hInv.run_mem i hi t ht p' hp'
      · rw [if_neg hle] at hp'
        have hsep : m.iterAt i + m.cntAt i ≤ it := by
          refine run_sep hInv hi hind hieq (by omega) ?_
          omega
        rw [hget, if_pos (by omega)] at hp'
        exact hInv.run_mem i hi t ht p' hp'
  · -- mem_run
    intro q p' hq
    rw [hBuck]
    rw [hget] at hq
    by_cases h1 : q < it
    · rw [if_pos h1] at hq
      have hb := hInv.mem_run q p' hq
      have hne : m.bucket p'.1 ≠ ind := by
        intro he
        rw [he] at hb
        omega
      rw [hItNe _ hne (bucket_lt hInv p'.1), hCntNe _ hne]
      rw [if_neg (by omega)]
      exact hb
    · rw [if_neg h1] at hq
      by_cases h2 : q = it
      · rw [if_pos h2] at hq
        have hpp : p = p' := Option.some.inj hq
        rw [← hpp, ← hind_def, hItSelf, hCntSelf]
        omega
      · rw [if_neg h2] at hq
        have hb := hInv.mem_run (q - 1) p' hq
        by_cases hne : m.bucket p'.1 = ind
        · rw [hne] at hb
          rw [hne, hItSelf, hCntSelf]
          omega
        · rw [hItNe _ hne (bucket_lt hInv p'.1), hCntNe _ hne]
          by_cases hle : it ≤ m.iterAt (m.bucket p'.1)
          · rw [if_pos hle]
            omega
          · have hsep : m.iterAt (m.bucket p'.1) + m.cntAt (m.bucket p'.1) ≤ it := by
              refine run_sep hInv (bucket_lt hInv p'.1) hind hne (by omega) ?_
              omega
            omega
  · -- empty_end
    intro i hi hc
    by_cases hieq : i = ind
    · subst hieq
      rw [hCntSelf] at hc
      omega
    · rw [hCntNe i hieq] at hc
      have hie := hInv.empty_end i hi hc
      rw [hItNe i hieq hi, hie, if_pos hit_le, hlen']

/-- After the insertion step, the new key maps to the inserted value. -/
theorem insertNew_assoc_self {m : HashMap K V} (hInv : Inv m) {p : K × V}
    (habs : p.1 ∉ m.body_.map Prod.fst) :
    assocFind (m.insertNew (m.bucket p.1) p).body_ p.1 = some p.2 := by
  have hnd := (Inv_insertNew hInv habs).nodup
  refine assocFind_eq_some_of_mem hnd ?_
  rw [insertNew_body]
  exact (mem_insertAt _ _ _).2 (Or.inl rfl)

/-- The insertion step does not change the mapping of any other key. -/
theorem insertNew_assoc_ne (m : HashMap K V) (ind : Nat) (p : K × V) {k' : K}
    (hne : p.1 ≠ k') :
    assocFind (m.insertNew ind p).body_ k' = assocFind m.body_ k' := by
  rw [insertNew_body]
  exact assocFind_insertAt_of_ne _ hne

/-! ### Value assignment through a reference (`modifyVal`) -/

theorem body_update_iterAt (m : HashMap K V) (b : List (K × V)) (i : Nat) :
    ({ m with body_ := b } : HashMap K V).iterAt i = m.iterAt i := rfl

theorem body_update_cntAt (m : HashMap K V) (b : List (K × V)) (i : Nat) :
    ({ m with body_ := b } : HashMap K V).cntAt i = m.cntAt i := rfl

theorem body_update_bucket (m : HashMap K V) (b : List (K × V)) (k : K) :
    ({ m with body_ := b } : HashMap K V).bucket k = m.bucket k := rfl

theorem body_update_cap (m : HashMap K V) (b : List (K × V)) :
    ({ m with body_ := b } : HashMap K V).hash_map_capacity_ = m.hash_map_capacity_ := rfl

theorem body_update_body (m : HashMap K V) (b : List (K × V)) :
    ({ m with body_ := b } : HashMap K V).body_ = b := rfl

/-- Changing a value in place preserves the representation invariant: the
invariant only mentions the keys of `body_`, which are untouched. -/
theorem Inv_modifyVal {m : HashMap K V} (hInv : Inv m) (n : Nat) (v : V) :
    Inv { m with body_ := modifyVal m.body_ n v } := by
  have hkeys : (modifyVal m.body_ n v).map Prod.fst = m.body_.map Prod.fst :=
    map_fst_modifyVal _ _ _
  have hlen : (modifyVal m.body_ n v).length = m.body_.length :=
    length_modifyVal _ _ _
  have hget := get?_modifyVal m.body_ n v
  refine ⟨hInv.cap_pos, hInv.iters_len, hInv.sizes_len, ?_, ?_, ?_, ?_, ?_, ?_⟩
  · simp only [body_update_body]
    rw [hInv.size_eq]
    exact hlen.symm
  · simp only [body_update_body]
    rw [hkeys]
    exact hInv.nodup
  · intro i hi
    simp only [body_update_body, body_update_iterAt, body_update_cntAt,
      body_update_cap] at *
    rw [hlen]
    exact hInv.run_le i hi
  · intro i hi t ht p hp
    simp only [body_update_body, body_update_iterAt, body_update_cntAt,
      body_update_bucket, body_update_cap] at *
    rw [hget] at hp
    by_cases h : m.iterAt i + t = n
    · rw [if_pos h, Option.map_eq_some'] at hp
      obtain ⟨p0, hp0, hpp⟩ := hp
      have hmem := hInv.run_mem i hi t ht p0 (h ▸ hp0)
      rw [← hpp] at *
      exact hmem
    · rw [if_neg h] at hp
      exact hInv.run_mem i hi t ht p hp
  · intro q p hq
    simp only [body_update_body, body_update_iterAt, body_update_cntAt,
      body_update_bucket, body_update_cap] at *
    rw [hget] at hq
    by_cases h : q = n
    · rw [if_pos h, Option.map_eq_some'] at hq
      obtain ⟨p0, hp0, hpp⟩ := hq
      have hmem := hInv.mem_run q p0 (h ▸ hp0)
      rw [← hpp]
      exact hmem
    · rw [if_neg h] at hq
      exact hInv.mem_run q p hq
  · intro i hi hc
    simp only [body_update_body, body_update_iterAt, body_update_cntAt,
      body_update_cap] at *
    rw [hlen]
    exact hInv.empty_end i hi hc

theorem modifyVal_eq_take_drop {l : List (K × V)} {n : Nat} {p0 : K × V}
    (hp0 : l.get? n = some p0) (v : V) :
    modifyVal l n v = l.take n ++ (p0.1, v) :: l.drop (n + 1) := by
  induction l generalizing n with
  | nil => simp at hp0
  | cons p l ih =>
    cases n with
    | zero =>
      have : p = p0 := Option.some.inj hp0
      subst this
      simp [modifyVal]
    | succ n =>
      simp only [List.get?_cons_succ] at hp0
      simp [modifyVal, ih hp0]

/-- After assignment at a position holding key `k`, `k` maps to the new value
(the keys are assumed distinct). -/
theorem assocFind_modifyVal_self {l : List (K × V)} {n : Nat} {p0 : K × V}
    (hnd : (l.map Prod.fst).Nodup) (hp0 : l.get? n = some p0) (v : V) :
    assocFind (modifyVal l n v) p0.1 = some v := by
  rw [modifyVal_eq_take_drop hp0 v]
  have hshape : l = l.take n ++ p0 :: l.drop (n + 1) := by
    have hn : n < l.length := by
      by_contra hc
      rw [List.get?_len_le (by omega)] at hp0
      exact Option.noConfusion hp0
    have := List.drop_eq_get_cons (l := l) hn
    have hget : l.get ⟨n, hn⟩ = p0 := by
      have := List.get?_eq_some.1 hp0
      obtain ⟨h1, h2⟩ := this
      exact h2
    rw [← hget]
    rw [← this]
    rw [List.take_append_drop]
  have hnotin : p0.1 ∉ (l.take n).map Prod.fst := by
    intro hmem
    have hnd2 : ((l.take n ++ p0 :: l.drop (n + 1)).map Prod.fst).Nodup := by
      rw [← hshape]; exact hnd
    rw [List.map_append, List.map_cons, List.nodup_middle, List.nodup_cons] at hnd2
    exact hnd2.1 (List.mem_append.2 (Or.inl hmem))
  unfold assocFind
  rw [List.find?_append]
  have h1 : (l.take n).find? (fun p => decide (p.1 = p0.1)) = none := by
    have := (assocFind_eq_none_iff (l.take n) p0.1).2 hnotin
    unfold assocFind at this
    rw [Option.map_eq_none'] at this
    exact this
  rw [h1, Option.none_or, List.find?_cons]
  simp

/-- Assignment at a position holding a different key leaves a key's mapping
unchanged. -/
theorem assocFind_modifyVal_ne {l : List (K × V)} {n : Nat} {p0 : K × V} {k' : K}
    (hp0 : l.get? n = some p0) (v : V) (hne : p0.1 ≠ k') :
    assocFind (modifyVal l n v) k' = assocFind l k' := by
  rw [modifyVal_eq_take_drop hp0 v]
  have hn : n < l.length := by
    by_contra hc
    rw [List.get?_len_le (by omega)] at hp0
    exact Option.noConfusion hp0
  have hshape : l = l.take n ++ p0 :: l.drop (n + 1) := by
    have := List.drop_eq_get_cons (l := l) hn
    have hget : l.get ⟨n, hn⟩ = p0 := (List.get?_eq_some.1 hp0).2
    rw [← hget, ← this, List.take_append_drop]
  conv_rhs => rw [hshape]
  unfold assocFind
  rw [List.find?_append, List.find?_append, List.find?_cons, List.find?_cons]
  have hd : decide (p0.1 = k') = false := decide_eq_false hne
  rw [hd]

/-! ### The body of `operator[]` -/

theorem indexCore_of_mem [Inhabited V] {m : HashMap K V} (hInv : Inv m) {k : K} {v : V}
    (hv : assocFind m.body_ k = some v) :
    (m.indexCore k).1 = m ∧ m.body_.get? (m.indexCore k).2 = some (k, v) := by
  have hmem : k ∈ m.body_.map Prod.fst := by
    rw [← assocFind_isSome_iff, hv]
    rfl
  obtain ⟨t, hscan⟩ := Option.isSome_iff_exists.1 ((scan_isSome_iff_mem hInv k).2 hmem)
  obtain ⟨ht, v', hget, hass⟩ := scan_some_spec hInv hscan
  have hv' : v' = v := by
    rw [hass] at hv
    exact Option.some.inj hv
  unfold HashMap.indexCore
  dsimp only
  rw [hscan]
  exact ⟨rfl, by rw [hget, hv']⟩

theorem indexCore_of_absent [Inhabited V] {m : HashMap K V} (hInv : Inv m) {k : K}
    (habs : k ∉ m.body_.map Prod.fst) :
    m.indexCore k = (m.insertNew (m.bucket k) (k, (default : V)), m.iterAt (m.bucket k)) := by
  have hscan := (scan_none_iff_not_mem hInv k).2 habs
  unfold HashMap.indexCore
  dsimp only
  rw [hscan]

theorem Inv_indexCoreFst [Inhabited V] {m : HashMap K V} (hInv : Inv m) (k : K) :
    Inv (m.indexCore k).1 := by
  by_cases hmem : k ∈ m.body_.map Prod.fst
  · obtain ⟨v0, hv0⟩ := Option.isSome_iff_exists.1 ((assocFind_isSome_iff _ _).2 hmem)
    rw [(indexCore_of_mem hInv hv0).1]
    exact hInv
  · rw [indexCore_of_absent hInv hmem]
    exact Inv_insertNew (p := (k, (default : V))) hInv hmem

/-! ### The assignment `(*this)[k] = v` -/

theorem indexAssign_def [Inhabited V] (m : HashMap K V) (k : K) (v : V) :
    m.indexAssign k v =
      { (m.indexCore k).1 with
        body_ := modifyVal (m.indexCore k).1.body_ (m.indexCore k).2 v } := rfl

theorem Inv_indexAssign [Inhabited V] {m : HashMap K V} (hInv : Inv m) (k : K) (v : V) :
    Inv (m.indexAssign k v) := by
  rw [indexAssign_def]
  exact Inv_modifyVal (Inv_indexCoreFst hInv k) _ v

theorem indexAssign_get_pos [Inhabited V] {m : HashMap K V} (hInv : Inv m) (k : K) :
    ∃ w, (m.indexCore k).1.body_.get? (m.indexCore k).2 = some (k, w) := by
  by_cases hmem : k ∈ m.body_.map Prod.fst
  · obtain ⟨v0, hv0⟩ := Option.isSome_iff_exists.1 ((assocFind_isSome_iff _ _).2 hmem)
    obtain ⟨h1, h2⟩ := indexCore_of_mem hInv hv0
    exact ⟨v0, by rw [h1]; exact h2⟩
  · rw [indexCore_of_absent hInv hmem]
    refine ⟨default, ?_⟩
    rw [insertNew_body]
    have hle : m.iterAt (m.bucket k) ≤ m.body_.length := by
      have := hInv.run_le (m.bucket k) (bucket_lt hInv k)
      omega
    rw [get?_insertAt _ _ _ hle]
    simp

theorem indexAssign_assoc [Inhabited V] {m : HashMap K V} (hInv : Inv m) (k : K) (v : V)
    (k' : K) :
    assocFind (m.indexAssign k v).body_ k' =
      if k' = k then some v else assocFind m.body_ k' := by
  obtain ⟨w, hw⟩ := indexAssign_get_pos hInv k
  have hInv1 := Inv_indexCoreFst hInv k
  by_cases hk' : k' = k
  · subst hk'
    rw [if_pos rfl, indexAssign_def]
    simp only [body_update_body]
    have := assocFind_modifyVal_self hInv1.nodup hw v
    simpa using this
  · rw [if_neg hk', indexAssign_def]
    have h1 : assocFind (modifyVal (m.indexCore k).1.body_ (m.indexCore k).2 v) k' =
        assocFind (m.indexCore k).1.body_ k' := by
      refine assocFind_modifyVal_ne hw v ?_
      simpa using fun he => hk' he.symm
    simp only [body_update_body]
    rw [h1]
    by_cases hmem : k ∈ m.body_.map Prod.fst
    · obtain ⟨v0, hv0⟩ := Option.isSome_iff_exists.1 ((assocFind_isSome_iff _ _).2 hmem)
      rw [(indexCore_of_mem hInv hv0).1]
    · rw [indexCore_of_absent hInv hmem]
      exact insertNew_assoc_ne m _ _ (by simpa using fun he => hk' he.symm)

theorem indexCore_cap [Inhabited V] (m : HashMap K V) (k : K) :
    (m.indexCore k).1.hash_map_capacity_ = m.hash_map_capacity_ := by
  unfold HashMap.indexCore
  dsimp only
  rcases hs : scanFrom m.body_ (m.iterAt (m.bucket k)) (m.cntAt (m.bucket k)) k
    with _ | t <;> rfl

theorem indexCore_hashFun [Inhabited V] (m : HashMap K V) (k : K) :
    (m.indexCore k).1.hash = m.hash := by
  unfold HashMap.indexCore
  dsimp only
  rcases hs : scanFrom m.body_ (m.iterAt (m.bucket k)) (m.cntAt (m.bucket k)) k
    with _ | t <;> rfl

theorem indexAssign_cap [Inhabited V] (m : HashMap K V) (k : K) (v : V) :
    (m.indexAssign k v).hash_map_capacity_ = m.hash_map_capacity_ := by
  rw [indexAssign_def, body_update_cap]
  exact indexCore_cap m k

theorem hash_update_body (m : HashMap K V) (b : List (K × V)) :
    ({ m with body_ := b } : HashMap K V).hash = m.hash := rfl

theorem size_update_body (m : HashMap K V) (b : List (K × V)) :
    ({ m with body_ := b } : HashMap K V).hash_map_size_ = m.hash_map_size_ := rfl

theorem indexAssign_hashFun [Inhabited V] (m : HashMap K V) (k : K) (v : V) :
    (m.indexAssign k v).hash = m.hash := by
  rw [indexAssign_def, hash_update_body]
  exact indexCore_hashFun m k

theorem indexAssign_size_of_mem [Inhabited V] {m : HashMap K V} (hInv : Inv m)
    {k : K} (v : V) (hmem : k ∈ m.body_.map Prod.fst) :
    (m.indexAssign k v).hash_map_size_ = m.hash_map_size_ := by
  obtain ⟨v0, hv0⟩ := Option.isSome_iff_exists.1 ((assocFind_isSome_iff _ _).2 hmem)
  rw [indexAssign_def, size_update_body, (indexCore_of_mem hInv hv0).1]

theorem indexAssign_size_of_absent [Inhabited V] {m : HashMap K V} (hInv : Inv m)
    {k : K} (v : V) (habs : k ∉ m.body_.map Prod.fst) :
    (m.indexAssign k v).hash_map_size_ = m.hash_map_size_ + 1 := by
  rw [indexAssign_def, size_update_body, indexCore_of_absent hInv habs]
  rfl

theorem indexAssign_mem_keys [Inhabited V] {m : HashMap K V} (hInv : Inv m)
    (k : K) (v : V) (k' : K) :
    k' ∈ (m.indexAssign k v).body_.map Prod.fst ↔
      k' = k ∨ k' ∈ m.body_.map Prod.fst := by
  rw [← assocFind_isSome_iff, indexAssign_assoc hInv k v k']
  by_cases hk' : k' = k
  · simp [hk']
  · rw [if_neg hk', assocFind_isSome_iff]
    simp [hk']

/-! ### Bulk loading by repeated `(*this)[k] = v` -/

theorem Inv_foldl_indexAssign [Inhabited V] {m : HashMap K V} (hInv : Inv m)
    (l : List (K × V)) :
    Inv (l.foldl (fun acc p => acc.indexAssign p.1 p.2) m) := by
  induction l generalizing m with
  | nil => exact hInv
  | cons p l ih => exact ih (Inv_indexAssign hInv p.1 p.2)

theorem assoc_foldl_indexAssign [Inhabited V] {m : HashMap K V} (hInv : Inv m)
    (l : List (K × V)) (k : K) :
    assocFind (l.foldl (fun acc p => acc.indexAssign p.1 p.2) m).body_ k =
      (lastWins l k).or (assocFind m.body_ k) := by
  induction l generalizing m with
  | nil => simp [lastWins]
  | cons p l ih =>
    rw [List.foldl_cons, ih (Inv_indexAssign hInv p.1 p.2), lastWins_cons,
      Option.or_assoc]
    congr 1
    rw [indexAssign_assoc hInv p.1 p.2 k]
    by_cases h : k = p.1
    · rw [if_pos h, if_pos h.symm]
      rfl
    · rw [if_neg h, if_neg (fun he => h he.symm), Option.none_or]

theorem cap_foldl_indexAssign [Inhabited V] (m : HashMap K V) (l : List (K × V)) :
    (l.foldl (fun acc p => acc.indexAssign p.1 p.2) m).hash_map_capacity_ =
      m.hash_map_capacity_ := by
  induction l generalizing m with
  | nil => rfl
  | cons p l ih =>
    rw [List.foldl_cons, ih, indexAssign_cap]

theorem hash_foldl_indexAssign [Inhabited V] (m : HashMap K V) (l : List (K × V)) :
    (l.foldl (fun acc p => acc.indexAssign p.1 p.2) m).hash = m.hash := by
  induction l generalizing m with
  | nil => rfl
  | cons p l ih =>
    rw [List.foldl_cons, ih, indexAssign_hashFun]

theorem size_foldl_indexAssign_fresh [Inhabited V] {m : HashMap K V} (hInv : Inv m)
    {l : List (K × V)} (hnd : (l.map Prod.fst).Nodup)
    (hfresh : ∀ x ∈ l.map Prod.fst, x ∉ m.body_.map Prod.fst) :
    (l.foldl (fun acc p => acc.indexAssign p.1 p.2) m).hash_map_size_ =
      m.hash_map_size_ + l.length := by
  induction l generalizing m with
  | nil => rfl
  | cons p l ih =>
    rw [List.map_cons, List.nodup_cons] at hnd
    have habs : p.1 ∉ m.body_.map Prod.fst :=
      hfresh p.1 (by rw [List.map_cons]; exact List.mem_cons.2 (Or.inl rfl))
    rw [List.foldl_cons]
    have hfresh2 : ∀ x ∈ l.map Prod.fst, x ∉ (m.indexAssign p.1 p.2).body_.map Prod.fst := by
      intro x hx
      rw [indexAssign_mem_keys hInv p.1 p.2 x]
      push_neg
      refine ⟨fun he => hnd.1 (he ▸ hx), ?_⟩
      exact hfresh x (by rw [List.map_cons]; exact List.mem_cons.2 (Or.inr hx))
    rw [ih (Inv_indexAssign hInv p.1 p.2) hnd.2 hfresh2,
      indexAssign_size_of_absent hInv p.2 habs]
    simp only [List.length_cons]
    omega

/-! ### The growth operation -/

theorem replicate_zero_getD (c i : Nat) : (List.replicate c 0).getD i 0 = 0 := by
  by_cases h : i < c
  · exact getD_replicate c 0 0 h
  · exact getD_of_length_le _ 0 (by simp; omega)

/-- The freshly reset state built by `enlarge_hashtable_if_needed` satisfies
the invariant. -/
theorem Inv_reset (m : HashMap K V) {c : Nat} (hc : 0 < c) :
    Inv ({ m with
      hash_map_capacity_ := c
      body_ := []
      iters_ := List.replicate c 0
      sizes_ := List.replicate c 0
      hash_map_size_ := 0 } : HashMap K V) := by
  refine ⟨hc, by simp, by simp, by simp, by simp, ?_, ?_, ?_, ?_⟩
  · intro i hi
    simp [HashMap.iterAt, HashMap.cntAt, replicate_zero_getD]
  · intro i hi t ht p hp
    simp only [HashMap.cntAt] at ht
    rw [replicate_zero_getD] at ht
    omega
  · intro q p hq
    simp at hq
  · intro i hi hc0
    simp only [HashMap.iterAt]
    rw [replicate_zero_getD]
    simp

theorem enlarge_of_lt [Inhabited V] {m : HashMap K V}
    (h : m.hash_map_size_ < m.hash_map_capacity_) :
    m.enlarge_hashtable_if_needed = m := by
  unfold HashMap.enlarge_hashtable_if_needed
  rw [if_pos h]

theorem enlarge_spec_ge [Inhabited V] {m : HashMap K V} (hInv : Inv m)
    (hge : m.hash_map_capacity_ ≤ m.hash_map_size_) :
    Inv m.enlarge_hashtable_if_needed ∧
    m.enlarge_hashtable_if_needed.hash_map_capacity_ = m.hash_map_capacity_ * 2 ∧
    m.enlarge_hashtable_if_needed.hash = m.hash ∧
    m.enlarge_hashtable_if_needed.hash_map_size_ = m.hash_map_size_ ∧
    ∀ k, assocFind m.enlarge_hashtable_if_needed.body_ k = assocFind m.body_ k := by
  have hInv0 := Inv_reset m (c := m.hash_map_capacity_ * RESIZE_FACTOR)
    (by have := hInv.cap_pos; unfold RESIZE_FACTOR; omega)
  unfold HashMap.enlarge_hashtable_if_needed
  rw [if_neg (by omega)]
  dsimp only
  refine ⟨Inv_foldl_indexAssign hInv0 _, ?_, ?_, ?_, ?_⟩
  · rw [cap_foldl_indexAssign]
    rfl
  · rw [hash_foldl_indexAssign]
  · rw [size_foldl_indexAssign_fresh hInv0 hInv.nodup (by simp), hInv.size_eq]
    simp
  · intro k
    rw [assoc_foldl_indexAssign hInv0]
    rw [lastWins_eq_assocFind k hInv.nodup]
    simp [assocFind]

theorem Inv_enlarge [Inhabited V] {m : HashMap K V} (hInv : Inv m) :
    Inv m.enlarge_hashtable_if_needed := by
  by_cases h : m.hash_map_size_ < m.hash_map_capacity_
  · rw [enlarge_of_lt h]; exact hInv
  · exact (enlarge_spec_ge hInv (by omega)).1

theorem assoc_enlarge [Inhabited V] {m : HashMap K V} (hInv : Inv m) (k : K) :
    assocFind m.enlarge_hashtable_if_needed.body_ k = assocFind m.body_ k := by
  by_cases h : m.hash_map_size_ < m.hash_map_capacity_
  · rw [enlarge_of_lt h]
  · exact (enlarge_spec_ge hInv (by omega)).2.2.2.2 k

theorem size_enlarge [Inhabited V] {m : HashMap K V} (hInv : Inv m) :
    m.enlarge_hashtable_if_needed.hash_map_size_ = m.hash_map_size_ := by
  by_cases h : m.hash_map_size_ < m.hash_map_capacity_
  · rw [enlarge_of_lt h]
  · exact (enlarge_spec_ge hInv (by omega)).2.2.2.1

theorem hash_enlarge [Inhabited V] {m : HashMap K V} (hInv : Inv m) :
    m.enlarge_hashtable_if_needed.hash = m.hash := by
  by_cases h : m.hash_map_size_ < m.hash_map_capacity_
  · rw [enlarge_of_lt h]
  · exact (enlarge_spec_ge hInv (by omega)).2.2.1

theorem mem_keys_enlarge [Inhabited V] {m : HashMap K V} (hInv : Inv m) (k : K) :
    k ∈ m.enlarge_hashtable_if_needed.body_.map Prod.fst ↔
      k ∈ m.body_.map Prod.fst := by
  rw [← assocFind_isSome_iff, ← assocFind_isSome_iff, assoc_enlarge hInv k]

/-! ### Removal of a list element -/

theorem eq_take_cons_drop {α : Type} {l : List α} {n : Nat} {x : α}
    (h : l.get? n = some x) : l = l.take n ++ x :: l.drop (n + 1) := by
  have hn : n < l.length := by
    by_contra hc
    rw [List.get?_len_le (by omega)] at h
    exact Option.noConfusion h
  have hd := List.drop_eq_get_cons (l := l) hn
  have hget : l.get ⟨n, hn⟩ = x := (List.get?_eq_some.1 h).2
  rw [← hget, ← hd, List.take_append_drop]

theorem not_mem_keys_eraseAt {l : List (K × V)} {n : Nat} {p0 : K × V}
    (hnd : (l.map Prod.fst).Nodup) (hp0 : l.get? n = some p0) :
    p0.1 ∉ (eraseAt l n).map Prod.fst := by
  have hshape := eq_take_cons_drop hp0
  have hnd2 : ((l.take n ++ p0 :: l.drop (n + 1)).map Prod.fst).Nodup := by
    rw [← hshape]
    exact hnd
  rw [List.map_append, List.map_cons, List.nodup_middle, List.nodup_cons] at hnd2
  rw [eraseAt_eq_take_drop, List.map_append]
  exact hnd2.1

theorem assocFind_eraseAt_ne {l : List (K × V)} {n : Nat} {p0 : K × V} {k' : K}
    (hp0 : l.get? n = some p0) (hne : p0.1 ≠ k') :
    assocFind (eraseAt l n) k' = assocFind l k' := by
  rw [eraseAt_eq_take_drop]
  conv_rhs => rw [eq_take_cons_drop hp0]
  unfold assocFind
  rw [List.find?_append, List.find?_append, List.find?_cons]
  have hd : decide (p0.1 = k') = false := decide_eq_false hne
  rw [hd]

/-! ### Effect of the removal step `eraseFound` -/

theorem eraseFound_body (m : HashMap K V) (ind t : Nat) :
    (m.eraseFound ind t).body_ = eraseAt m.body_ (m.iterAt ind + t) := rfl

theorem eraseFound_size (m : HashMap K V) (ind t : Nat) :
    (m.eraseFound ind t).hash_map_size_ = m.hash_map_size_ - 1 := rfl

theorem eraseFound_cap (m : HashMap K V) (ind t : Nat) :
    (m.eraseFound ind t).hash_map_capacity_ = m.hash_map_capacity_ := rfl

theorem eraseFound_hashFun (m : HashMap K V) (ind t : Nat) :
    (m.eraseFound ind t).hash = m.hash := rfl

theorem eraseFound_bucket (m : HashMap K V) (ind t : Nat) (x : K) :
    (m.eraseFound ind t).bucket x = m.bucket x := rfl

theorem eraseFound_sizes_len (m : HashMap K V) (ind t : Nat) :
    (m.eraseFound ind t).sizes_.length = m.sizes_.length := by
  simp [HashMap.eraseFound]

theorem eraseFound_iters_len (m : HashMap K V) (ind t : Nat) :
    (m.eraseFound ind t).iters_.length = m.iters_.length := by
  unfold HashMap.eraseFound
  dsimp only
  by_cases h1 : m.cntAt ind - 1 = 0 <;> by_cases h2 : t = 0 <;>
    simp [h1, h2]

theorem eraseFound_cntAt_self (m : HashMap K V) (ind t : Nat)
    (h : ind < m.sizes_.length) :
    (m.eraseFound ind t).cntAt ind = m.cntAt ind - 1 := by
  unfold HashMap.eraseFound HashMap.cntAt
  dsimp only
  exact getD_set_self _ _ _ _ h

theorem eraseFound_cntAt_ne (m : HashMap K V) (ind t : Nat) {i : Nat}
    (h : i ≠ ind) : (m.eraseFound ind t).cntAt i = m.cntAt i := by
  unfold HashMap.eraseFound HashMap.cntAt
  dsimp only
  exact getD_set_ne _ _ _ (Ne.symm h)

theorem eraseFound_iterAt_ne (m : HashMap K V) (ind t : Nat) {i : Nat}
    (h : i ≠ ind) (hi : i < m.iters_.length) :
    (m.eraseFound ind t).iterAt i =
      if m.iterAt ind + t < m.iterAt i then m.iterAt i - 1 else m.iterAt i := by
  unfold HashMap.eraseFound HashMap.iterAt
  dsimp only
  by_cases h1 : m.cntAt ind - 1 = 0 <;> by_cases h2 : t = 0 <;>
    simp only [h1, h2, if_pos, if_neg, if_true, if_false] <;>
    first
      | (rw [getD_set_ne _ _ _ (Ne.symm h), getD_set_ne _ _ _ (Ne.symm h),
          getD_map_of_lt _ _ _ hi])
      | (rw [getD_set_ne _ _ _ (Ne.symm h), getD_map_of_lt _ _ _ hi])
      | (rw [getD_map_of_lt _ _ _ hi])

theorem eraseFound_iterAt_self_zero (m : HashMap K V) (ind t : Nat)
    (hind : ind < m.iters_.length) (hc : m.cntAt ind - 1 = 0) :
    (m.eraseFound ind t).iterAt ind = (eraseAt m.body_ (m.iterAt ind + t)).length := by
  unfold HashMap.eraseFound HashMap.iterAt
  dsimp only
  rw [if_pos hc]
  refine getD_set_self _ _ _ _ ?_
  by_cases h2 : t = 0 <;> simp [h2, hind]

theorem eraseFound_iterAt_self_pos (m : HashMap K V) (ind t : Nat)
    (hind : ind < m.iters_.length) (hc : m.cntAt ind - 1 ≠ 0) :
    (m.eraseFound ind t).iterAt ind = m.iterAt ind := by
  unfold HashMap.eraseFound HashMap.iterAt
  dsimp only
  rw [if_neg hc]
  by_cases h2 : t = 0
  · rw [if_pos h2]
    rw [getD_set_self _ _ _ _ (by simpa using hind)]
    omega
  · rw [if_neg h2]
    rw [getD_map_of_lt _ _ _ hind]
    rw [if_neg (by omega)]

/-- The removal step preserves the representation invariant when the scan has
found the key at offset `t` of its bucket's run. -/
theorem Inv_eraseFound {m : HashMap K V} (hInv : Inv m) {k : K} {t : Nat}
    (hscan : scanFrom m.body_ (m.iterAt (m.bucket k)) (m.cntAt (m.bucket k)) k = some t) :
    Inv (m.eraseFound (m.bucket k) t) := by
  obtain ⟨ht, w, hposw, hass⟩ := scan_some_spec hInv hscan
  have hind : m.bucket k < m.hash_map_capacity_ := bucket_lt hInv k
  set ind := m.bucket k with hind_def
  set it := m.iterAt ind with hit_def
  set cnt := m.cntAt ind with hcnt_def
  set L := m.body_.length with hL_def
  have hitl : ind < m.iters_.length := by rw [hInv.iters_len]; exact hind
  have hszl : ind < m.sizes_.length := by rw [hInv.sizes_len]; exact hind
  have hrun : it + cnt ≤ L := hInv.run_le ind hind
  have hposL : it + t < L := by omega
  have hlen2 : (eraseAt m.body_ (it + t)).length = L - 1 :=
    length_eraseAt _ _ hposL
  have hget2 : ∀ q, (eraseAt m.body_ (it + t)).get? q =
      if q < it + t then m.body_.get? q else m.body_.get? (q + 1) :=
    get?_eraseAt _ _ hposL
  have hcnt_pos : 0 < cnt := by omega
  have hbody' : (m.eraseFound ind t).body_ = eraseAt m.body_ (it + t) := rfl
  have hItNe : ∀ i, i ≠ ind → i < m.hash_map_capacity_ →
      (m.eraseFound ind t).iterAt i =
        if it + t < m.iterAt i then m.iterAt i - 1 else m.iterAt i := by
    intro i hi hic
    exact eraseFound_iterAt_ne m ind t hi (by rw [hInv.iters_len]; exact hic)
  have hCntNe : ∀ i, i ≠ ind → (m.eraseFound ind t).cntAt i = m.cntAt i :=
    fun i hi => eraseFound_cntAt_ne m ind t hi
  have hCntSelf : (m.eraseFound ind t).cntAt ind = cnt - 1 :=
    eraseFound_cntAt_self m ind t hszl
  -- positions of a foreign bucket's run lie entirely below or entirely above
  -- the erased bucket's run
  have hsep : ∀ i, i ≠ ind → i < m.hash_map_capacity_ → 0 < m.cntAt i →
      m.iterAt i + m.cntAt i ≤ it ∨ it + cnt ≤ m.iterAt i := by
    intro i hi hic hci
    exact run_trichot hInv hic hind hi hci hcnt_pos
  refine ⟨hInv.cap_pos, ?_, ?_, ?_, ?_, ?_, ?_, ?_, ?_⟩
  · rw [eraseFound_iters_len, hInv.iters_len]
    rfl
  · rw [eraseFound_sizes_len, hInv.sizes_len]
    rfl
  · rw [eraseFound_size]
    rw [hbody', hlen2, hInv.size_eq]
  · rw [hbody', map_eraseAt]
    exact nodup_eraseAt _ hInv.nodup
  · -- run_le
    intro i hi
    rw [hbody', hlen2]
    by_cases hieq : i = ind
    · subst hieq
      rw [hCntSelf]
      by_cases hc : cnt - 1 = 0
      · rw [eraseFound_iterAt_self_zero m ind t hitl hc, ← hit_def, hlen2]
        omega
      · rw [eraseFound_iterAt_self_pos m ind t hitl hc]
        omega
    · rw [hItNe i hieq hi, hCntNe i hieq]
      rcases Nat.eq_zero_or_pos (m.cntAt i) with hc0 | hc0
      · have hie := hInv.empty_end i hi hc0
        rw [hie]
        rw [if_pos (by omega)]
        omega
      · have hrli := hInv.run_le i hi
        rcases hsep i hieq hi hc0 with hbelow | habove
        · rw [if_neg (by omega)]
          omega
        · rw [if_pos (by omega)]
          omega
  · -- run_mem
    intro i hi t' ht' p' hp'
    rw [eraseFound_bucket]
    rw [hbody'] at hp'
    by_cases hieq : i = ind
    · subst hieq
      rw [hCntSelf] at ht'
      have hc : cnt - 1 ≠ 0 := by omega
      rw [eraseFound_iterAt_self_pos m ind t hitl hc] at hp'
      rw [hget2] at hp'
      by_cases hq : it + t' < it + t
      · rw [if_pos hq] at hp'
        exact hInv.run_mem ind hind t' (by omega) p' hp'
      · rw [if_neg hq] at hp'
        have harith : it + t' + 1 = it + (t' + 1) := by omega
        rw [harith] at hp'
        exact hInv.run_mem ind hind (t' + 1) (by omega) p' hp'
    · rw [hCntNe i hieq] at ht'
      rw [hItNe i hieq hi] at hp'
      rcases hsep i hieq hi (by omega) with hbelow | habove
      · have hie : m.iterAt i + m.cntAt i ≤ it := hbelow
        rw [if_neg (by omega)] at hp'
        rw [hget2, if_pos (by omega)] at hp'
        exact hInv.run_mem i hi t' ht' p' hp'
      · rw [if_pos (by omega)] at hp'
        rw [hget2] at hp'
        have hge1 : 1 ≤ m.iterAt i := by omega
        rw [if_neg (by omega)] at hp'
        have harith : m.iterAt i - 1 + t' + 1 = m.iterAt i + t' := by omega
        rw [harith] at hp'
        exact hInv.run_mem i hi t' ht' p' hp'
  · -- mem_run
    intro q p' hq
    rw [eraseFound_bucket]
    rw [hbody'] at hq
    rw [hget2] at hq
    by_cases h1 : q < it + t
    · rw [if_pos h1] at hq
      have hb := hInv.mem_run q p' hq
      by_cases hj : m.bucket p'.1 = ind
      · rw [hj] at hb ⊢
        rw [hCntSelf]
        have hc : cnt - 1 ≠ 0 := by
          intro hc0
          have : cnt = 1 := by omega
          omega
        rw [eraseFound_iterAt_self_pos m ind t hitl hc]
        omega
      · have hcj : 0 < m.cntAt (m.bucket p'.1) := by omega
        rcases hsep _ hj (bucket_lt hInv p'.1) hcj with hbelow | habove
        · rw [hItNe _ hj (bucket_lt hInv p'.1), hCntNe _ hj]
          rw [if_neg (by omega)]
          omega
        · omega
    · rw [if_neg h1] at hq
      have hb := hInv.mem_run (q + 1) p' hq
      by_cases hj : m.bucket p'.1 = ind
      · rw [hj] at hb ⊢
        rw [hCntSelf]
        have hc : cnt - 1 ≠ 0 := by omega
        rw [eraseFound_iterAt_self_pos m ind t hitl hc]
        omega
      · have hcj : 0 < m.cntAt (m.bucket p'.1) := by omega
        rcases hsep _ hj (bucket_lt hInv p'.1) hcj with hbelow | habove
        · omega
        · rw [hItNe _ hj (bucket_lt hInv p'.1), hCntNe _ hj]
          rw [if_pos (by omega)]
          omega
  · -- empty_end
    intro i hi hc
    rw [hbody', hlen2]
    by_cases hieq : i = ind
    · subst hieq
      rw [hCntSelf] at hc
      rw [eraseFound_iterAt_self_zero m ind t hitl hc, ← hit_def, hlen2]
    · rw [hCntNe i hieq] at hc
      have hie := hInv.empty_end i hi hc
      rw [hItNe i hieq hi, hie, if_pos (by omega)]

/-! ### The body of `erase` -/

theorem eraseCore_of_absent {m : HashMap K V} (hInv : Inv m) {k : K}
    (habs : k ∉ m.body_.map Prod.fst) : m.eraseCore k = m := by
  unfold HashMap.eraseCore
  dsimp only
  rw [(scan_none_iff_not_mem hInv k).2 habs]

theorem eraseCore_of_found {m : HashMap K V} {k : K} {t : Nat}
    (hscan : scanFrom m.body_ (m.iterAt (m.bucket k)) (m.cntAt (m.bucket k)) k = some t) :
    m.eraseCore k = m.eraseFound (m.bucket k) t := by
  unfold HashMap.eraseCore
  dsimp only
  rw [hscan]

theorem Inv_eraseCore {m : HashMap K V} (hInv : Inv m) (k : K) :
    Inv (m.eraseCore k) := by
  by_cases hmem : k ∈ m.body_.map Prod.fst
  · obtain ⟨t, hscan⟩ := Option.isSome_iff_exists.1 ((scan_isSome_iff_mem hInv k).2 hmem)
    rw [eraseCore_of_found hscan]
    exact Inv_eraseFound hInv hscan
  · rw [eraseCore_of_absent hInv hmem]
    exact hInv

theorem eraseCore_spec_mem {m : HashMap K V} (hInv : Inv m) {k : K} {v : V}
    (hv : assocFind m.body_ k = some v) :
    (m.eraseCore k).hash_map_size_ = m.hash_map_size_ - 1 ∧
    0 < m.hash_map_size_ ∧
    assocFind (m.eraseCore k).body_ k = none ∧
    ∀ k', k' ≠ k → assocFind (m.eraseCore k).body_ k' = assocFind m.body_ k' := by
  have hmem : k ∈ m.body_.map Prod.fst := by
    rw [← assocFind_isSome_iff, hv]
    rfl
  obtain ⟨t, hscan⟩ := Option.isSome_iff_exists.1 ((scan_isSome_iff_mem hInv k).2 hmem)
  obtain ⟨ht, w, hposw, hass⟩ := scan_some_spec hInv hscan
  have hrun := hInv.run_le (m.bucket k) (bucket_lt hInv k)
  have hposL : m.iterAt (m.bucket k) + t < m.body_.length := by omega
  rw [eraseCore_of_found hscan]
  refine ⟨eraseFound_size m _ t, ?_, ?_, ?_⟩
  · rw [hInv.size_eq]
    omega
  · rw [eraseFound_body]
    rw [assocFind_eq_none_iff]
    exact not_mem_keys_eraseAt hInv.nodup hposw
  · intro k' hk'
    rw [eraseFound_body]
    exact assocFind_eraseAt_ne hposw (fun he => hk' he.symm)

theorem eraseCore_cap (m : HashMap K V) (k : K) :
    (m.eraseCore k).hash_map_capacity_ = m.hash_map_capacity_ := by
  unfold HashMap.eraseCore
  dsimp only
  rcases hs : scanFrom m.body_ (m.iterAt (m.bucket k)) (m.cntAt (m.bucket k)) k
    with _ | t <;> rfl

theorem eraseCore_hashFun (m : HashMap K V) (k : K) :
    (m.eraseCore k).hash = m.hash := by
  unfold HashMap.eraseCore
  dsimp only
  rcases hs : scanFrom m.body_ (m.iterAt (m.bucket k)) (m.cntAt (m.bucket k)) k
    with _ | t <;> rfl

/-! ### The body of `insert` -/

theorem insertCore_of_mem {m : HashMap K V} (hInv : Inv m) {p : K × V}
    (hmem : p.1 ∈ m.body_.map Prod.fst) : m.insertCore p = m := by
  obtain ⟨t, hscan⟩ := Option.isSome_iff_exists.1 ((scan_isSome_iff_mem hInv p.1).2 hmem)
  unfold HashMap.insertCore
  dsimp only
  rw [hscan]

theorem insertCore_of_absent {m : HashMap K V} (hInv : Inv m) {p : K × V}
    (habs : p.1 ∉ m.body_.map Prod.fst) :
    m.insertCore p = m.insertNew (m.bucket p.1) p := by
  unfold HashMap.insertCore
  dsimp only
  rw [(scan_none_iff_not_mem hInv p.1).2 habs]

theorem Inv_insertCore {m : HashMap K V} (hInv : Inv m) (p : K × V) :
    Inv (m.insertCore p) := by
  by_cases hmem : p.1 ∈ m.body_.map Prod.fst
  · rw [insertCore_of_mem hInv hmem]
    exact hInv
  · rw [insertCore_of_absent hInv hmem]
    exact Inv_insertNew hInv hmem

/-! ### `at` -/

theorem atVal_of_mem {m : HashMap K V} (hInv : Inv m) {k : K} {v : V}
    (hv : assocFind m.body_ k = some v) : m.atVal k = Except.ok v := by
  have hmem : k ∈ m.body_.map Prod.fst := by
    rw [← assocFind_isSome_iff, hv]
    rfl
  obtain ⟨t, hscan⟩ := Option.isSome_iff_exists.1 ((scan_isSome_iff_mem hInv k).2 hmem)
  obtain ⟨ht, w, hposw, hass⟩ := scan_some_spec hInv hscan
  have hw : w = v := by
    rw [hass] at hv
    exact Option.some.inj hv
  unfold HashMap.atVal
  dsimp only
  rw [hscan]
  dsimp only
  rw [hposw, hw]

theorem atVal_of_absent {m : HashMap K V} (hInv : Inv m) {k : K}
    (habs : assocFind m.body_ k = none) :
    m.atVal k = Except.error "Out of range error" := by
  have hnm : k ∉ m.body_.map Prod.fst := (assocFind_eq_none_iff _ _).1 habs
  unfold HashMap.atVal
  dsimp only
  rw [(scan_none_iff_not_mem hInv k).2 hnm]

/-! ### `find` -/

theorem find_of_absent {m : HashMap K V} (hInv : Inv m) {k : K}
    (habs : k ∉ m.body_.map Prod.fst) : m.find k = m.endIter := by
  unfold HashMap.find
  dsimp only
  rw [(scan_none_iff_not_mem hInv k).2 habs]

theorem find_of_mem {m : HashMap K V} (hInv : Inv m) {k : K} {v : V}
    (hv : assocFind m.body_ k = some v) :
    m.find k < m.endIter ∧ m.body_.get? (m.find k) = some (k, v) := by
  have hmem : k ∈ m.body_.map Prod.fst := by
    rw [← assocFind_isSome_iff, hv]
    rfl
  obtain ⟨t, hscan⟩ := Option.isSome_iff_exists.1 ((scan_isSome_iff_mem hInv k).2 hmem)
  obtain ⟨ht, w, hposw, hass⟩ := scan_some_spec hInv hscan
  have hw : w = v := by
    rw [hass] at hv
    exact Option.some.inj hv
  have hrun := hInv.run_le (m.bucket k) (bucket_lt hInv k)
  unfold HashMap.find
  dsimp only
  rw [hscan]
  dsimp only
  refine ⟨by unfold HashMap.endIter; omega, ?_⟩
  rw [hposw, hw]

/-! ### `clear` -/

theorem clear_fold_len (c : Nat) (hs : List Nat) (s0 i0 : List Nat) :
    (hs.foldl (fun (si : List Nat × List Nat) h =>
        (si.1.set (h % c) 0, si.2.set (h % c) 0)) (s0, i0)).1.length = s0.length ∧
    (hs.foldl (fun (si : List Nat × List Nat) h =>
        (si.1.set (h % c) 0, si.2.set (h % c) 0)) (s0, i0)).2.length = i0.length := by
  induction hs generalizing s0 i0 with
  | nil => exact ⟨rfl, rfl⟩
  | cons h0 hs ih =>
    rw [List.foldl_cons]
    refine ⟨?_, ?_⟩
    · rw [(ih _ _).1, List.length_set]
    · rw [(ih _ _).2, List.length_set]

theorem clear_fold_get (c : Nat) (hs : List Nat) (s0 i0 : List Nat) (i : Nat)
    (h1 : i < s0.length) (h2 : i < i0.length) :
    ((∀ h ∈ hs, h % c ≠ i) ∧
      (hs.foldl (fun (si : List Nat × List Nat) h =>
        (si.1.set (h % c) 0, si.2.set (h % c) 0)) (s0, i0)).1.getD i 0 = s0.getD i 0 ∧
      (hs.foldl (fun (si : List Nat × List Nat) h =>
        (si.1.set (h % c) 0, si.2.set (h % c) 0)) (s0, i0)).2.getD i 0 = i0.getD i 0)
    ∨ ((∃ h ∈ hs, h % c = i) ∧
      (hs.foldl (fun (si : List Nat × List Nat) h =>
        (si.1.set (h % c) 0, si.2.set (h % c) 0)) (s0, i0)).1.getD i 0 = 0 ∧
      (hs.foldl (fun (si : List Nat × List Nat) h =>
        (si.1.set (h % c) 0, si.2.set (h % c) 0)) (s0, i0)).2.getD i 0 = 0) := by
  induction hs generalizing s0 i0 with
  | nil =>
    left
    exact ⟨by simp, rfl, rfl⟩
  | cons h0 hs ih =>
    rw [List.foldl_cons]
    rcases ih (s0.set (h0 % c) 0) (i0.set (h0 % c) 0)
        (by rw [List.length_set]; exact h1) (by rw [List.length_set]; exact h2)
      with ⟨hall, e1, e2⟩ | ⟨⟨hw, hwmem, hwc⟩, e1, e2⟩
    · by_cases hh : h0 % c = i
      · right
        refine ⟨⟨h0, List.mem_cons.2 (Or.inl rfl), hh⟩, ?_, ?_⟩
        · rw [e1, hh, getD_set_self _ _ _ _ h1]
        · rw [e2, hh, getD_set_self _ _ _ _ h2]
      · left
        refine ⟨?_, ?_, ?_⟩
        · intro h hmem
          rcases List.mem_cons.1 hmem with he | he
          · rw [he]; exact hh
          · exact hall h he
        · rw [e1, getD_set_ne _ _ _ hh]
        · rw [e2, getD_set_ne _ _ _ hh]
    · right
      exact ⟨⟨hw, List.mem_cons.2 (Or.inr hwmem), hwc⟩, e1, e2⟩

theorem clear_body (m : HashMap K V) : (m.clear).body_ = [] := rfl

theorem clear_size (m : HashMap K V) : (m.clear).hash_map_size_ = 0 := rfl

theorem clear_cap (m : HashMap K V) :
    (m.clear).hash_map_capacity_ = m.hash_map_capacity_ := rfl

theorem clear_hashFun (m : HashMap K V) : (m.clear).hash = m.hash := rfl

theorem clear_buckets {m : HashMap K V} (hInv : Inv m) :
    ∀ i, i < m.hash_map_capacity_ → (m.clear).cntAt i = 0 ∧ (m.clear).iterAt i = 0 := by
  intro i hi
  have h1 : i < m.sizes_.length := by rw [hInv.sizes_len]; exact hi
  have h2 : i < (m.iters_.map fun j => j - m.body_.length).length := by
    rw [List.length_map, hInv.iters_len]; exact hi
  have hchar := clear_fold_get m.hash_map_capacity_
    (m.body_.map fun p => m.hash p.1) m.sizes_
    (m.iters_.map fun j => j - m.body_.length) i h1 h2
  have hcnt' : (m.clear).cntAt i =
      ((m.body_.map fun p => m.hash p.1).foldl
        (fun (si : List Nat × List Nat) h =>
          (si.1.set (h % m.hash_map_capacity_) 0, si.2.set (h % m.hash_map_capacity_) 0))
        (m.sizes_, m.iters_.map fun j => j - m.body_.length)).1.getD i 0 := rfl
  have hiter' : (m.clear).iterAt i =
      ((m.body_.map fun p => m.hash p.1).foldl
        (fun (si : List Nat × List Nat) h =>
          (si.1.set (h % m.hash_map_capacity_) 0, si.2.set (h % m.hash_map_capacity_) 0))
        (m.sizes_, m.iters_.map fun j => j - m.body_.length)).2.getD i 0 := rfl
  rcases hchar with ⟨hall, e1, e2⟩ | ⟨hex, e1, e2⟩
  · -- no element hashed to bucket i, so it was empty already
    have hcnt0 : m.cntAt i = 0 := by
      by_contra hc
      have hcpos : 0 < m.cntAt i := by omega
      have hrli := hInv.run_le i hi
      obtain ⟨p, hp⟩ := Option.ne_none_iff_exists'.1
        (by rw [List.get?_eq_none]; omega : ¬ m.body_.get? (m.iterAt i) = none)
      have hbp : m.bucket p.1 = i := by
        refine hInv.run_mem i hi 0 hcpos p ?_
        rw [Nat.add_zero]
        exact hp
      have hmem : m.hash p.1 ∈ m.body_.map fun p => m.hash p.1 :=
        List.mem_map.2 ⟨p, List.mem_iff_get?.2 ⟨_, hp⟩, rfl⟩
      exact hall _ hmem hbp
    refine ⟨?_, ?_⟩
    · rw [hcnt', e1]
      exact hcnt0
    · have hie := hInv.empty_end i hi hcnt0
      rw [hiter', e2, getD_map_of_lt _ _ _ (by rw [hInv.iters_len]; exact hi)]
      unfold HashMap.iterAt at hie
      omega
  · exact ⟨by rw [hcnt', e1], by rw [hiter', e2]⟩

theorem clear_sizes_len (m : HashMap K V) : (m.clear).sizes_.length = m.sizes_.length := by
  unfold HashMap.clear
  dsimp only
  exact (clear_fold_len _ _ _ _).1

theorem clear_iters_len (m : HashMap K V) : (m.clear).iters_.length = m.iters_.length := by
  unfold HashMap.clear
  dsimp only
  rw [(clear_fold_len _ _ _ _).2, List.length_map]

theorem Inv_clear {m : HashMap K V} (hInv : Inv m) : Inv (m.clear) := by
  have hb := clear_buckets hInv
  refine ⟨?_, ?_, ?_, ?_, ?_, ?_, ?_, ?_, ?_⟩
  · rw [clear_cap]; exact hInv.cap_pos
  · rw [clear_iters_len, hInv.iters_len, clear_cap]
  · rw [clear_sizes_len, hInv.sizes_len, clear_cap]
  · rw [clear_size, clear_body]
    rfl
  · rw [clear_body]
    exact List.nodup_nil
  · intro i hi
    rw [clear_cap] at hi
    rw [clear_body, (hb i hi).1, (hb i hi).2]
    simp
  · intro i hi t ht p hp
    rw [clear_cap] at hi
    rw [(hb i hi).1] at ht
    omega
  · intro q p hq
    rw [clear_body] at hq
    simp at hq
  · intro i hi hc
    rw [clear_cap] at hi
    rw [clear_body, (hb i hi).2]
    rfl

/-! ### The public operations -/

theorem Inv_insert [Inhabited V] {m : HashMap K V} (hInv : Inv m) (p : K × V) :
    Inv (m.insert p) :=
  Inv_insertCore (Inv_enlarge hInv) p

theorem Inv_erase [Inhabited V] {m : HashMap K V} (hInv : Inv m) (k : K) :
    Inv (m.erase k) :=
  Inv_eraseCore (Inv_enlarge hInv) k

theorem Inv_opIndexSet [Inhabited V] {m : HashMap K V} (hInv : Inv m) (k : K) (v : V) :
    Inv (m.opIndexSet k v) :=
  Inv_indexAssign (Inv_enlarge hInv) k v

theorem Inv_opIndexFst [Inhabited V] {m : HashMap K V} (hInv : Inv m) (k : K) :
    Inv (m.opIndex k).1 :=
  Inv_indexCoreFst (Inv_enlarge hInv) k

theorem insert_assoc_of_mem [Inhabited V] {m : HashMap K V} (hInv : Inv m)
    {p : K × V} (hmem : p.1 ∈ m.body_.map Prod.fst) (k' : K) :
    assocFind (m.insert p).body_ k' = assocFind m.body_ k' := by
  unfold HashMap.insert
  rw [insertCore_of_mem (Inv_enlarge hInv) ((mem_keys_enlarge hInv p.1).2 hmem)]
  exact assoc_enlarge hInv k'

theorem insert_assoc_of_absent_self [Inhabited V] {m : HashMap K V} (hInv : Inv m)
    {p : K × V} (habs : p.1 ∉ m.body_.map Prod.fst) :
    assocFind (m.insert p).body_ p.1 = some p.2 := by
  unfold HashMap.insert
  have habs' : p.1 ∉ m.enlarge_hashtable_if_needed.body_.map Prod.fst :=
    fun h => habs ((mem_keys_enlarge hInv p.1).1 h)
  rw [insertCore_of_absent (Inv_enlarge hInv) habs']
  exact insertNew_assoc_self (Inv_enlarge hInv) habs'

theorem insert_assoc_of_absent_ne [Inhabited V] {m : HashMap K V} (hInv : Inv m)
    {p : K × V} (habs : p.1 ∉ m.body_.map Prod.fst) {k' : K} (hne : p.1 ≠ k') :
    assocFind (m.insert p).body_ k' = assocFind m.body_ k' := by
  unfold HashMap.insert
  have habs' : p.1 ∉ m.enlarge_hashtable_if_needed.body_.map Prod.fst :=
    fun h => habs ((mem_keys_enlarge hInv p.1).1 h)
  rw [insertCore_of_absent (Inv_enlarge hInv) habs']
  rw [insertNew_assoc_ne _ _ _ hne]
  exact assoc_enlarge hInv k'

theorem insert_size_of_mem [Inhabited V] {m : HashMap K V} (hInv : Inv m)
    {p : K × V} (hmem : p.1 ∈ m.body_.map Prod.fst) :
    (m.insert p).size = m.size := by
  unfold HashMap.insert HashMap.size
  rw [insertCore_of_mem (Inv_enlarge hInv) ((mem_keys_enlarge hInv p.1).2 hmem)]
  exact size_enlarge hInv

theorem insert_size_of_absent [Inhabited V] {m : HashMap K V} (hInv : Inv m)
    {p : K × V} (habs : p.1 ∉ m.body_.map Prod.fst) :
    (m.insert p).size = m.size + 1 := by
  unfold HashMap.insert HashMap.size
  have habs' : p.1 ∉ m.enlarge_hashtable_if_needed.body_.map Prod.fst :=
    fun h => habs ((mem_keys_enlarge hInv p.1).1 h)
  rw [insertCore_of_absent (Inv_enlarge hInv) habs', insertNew_size,
    size_enlarge hInv]

theorem insert_mem_keys [Inhabited V] {m : HashMap K V} (hInv : Inv m)
    (p : K × V) (k' : K) :
    k' ∈ (m.insert p).body_.map Prod.fst ↔ k' = p.1 ∨ k' ∈ m.body_.map Prod.fst := by
  rw [← assocFind_isSome_iff]
  by_cases hmem : p.1 ∈ m.body_.map Prod.fst
  · rw [insert_assoc_of_mem hInv hmem k', assocFind_isSome_iff]
    constructor
    · exact fun h => Or.inr h
    · rintro (he | h)
      · exact he ▸ hmem
      · exact h
  · by_cases hk' : k' = p.1
    · subst hk'
      rw [insert_assoc_of_absent_self hInv hmem]
      simp
    · rw [insert_assoc_of_absent_ne hInv hmem (fun he => hk' he.symm),
        assocFind_isSome_iff]
      simp [hk']

theorem erase_spec_mem [Inhabited V] {m : HashMap K V} (hInv : Inv m) {k : K} {v : V}
    (hv : assocFind m.body_ k = some v) :
    (m.erase k).size = m.size - 1 ∧ 0 < m.size ∧
    assocFind (m.erase k).body_ k = none ∧
    ∀ k', k' ≠ k → assocFind (m.erase k).body_ k' = assocFind m.body_ k' := by
  unfold HashMap.erase HashMap.size
  have hv' : assocFind m.enlarge_hashtable_if_needed.body_ k = some v := by
    rw [assoc_enlarge hInv k]
    exact hv
  obtain ⟨h1, h2, h3, h4⟩ := eraseCore_spec_mem (Inv_enlarge hInv) hv'
  refine ⟨?_, ?_, h3, ?_⟩
  · rw [h1, size_enlarge hInv]
  · rw [← size_enlarge hInv]
    exact h2
  · intro k' hk'
    rw [h4 k' hk']
    exact assoc_enlarge hInv k'

theorem erase_of_absent [Inhabited V] {m : HashMap K V} (hInv : Inv m) {k : K}
    (habs : assocFind m.body_ k = none) :
    (m.erase k).size = m.size ∧
    ∀ k', assocFind (m.erase k).body_ k' = assocFind m.body_ k' := by
  unfold HashMap.erase HashMap.size
  have habs' : k ∉ m.enlarge_hashtable_if_needed.body_.map Prod.fst := by
    rw [mem_keys_enlarge hInv k]
    exact (assocFind_eq_none_iff _ _).1 habs
  rw [eraseCore_of_absent (Inv_enlarge hInv) habs']
  exact ⟨size_enlarge hInv, fun k' => assoc_enlarge hInv k'⟩

theorem erase_assoc_self [Inhabited V] {m : HashMap K V} (hInv : Inv m) (k : K) :
    assocFind (m.erase k).body_ k = none := by
  cases hv : assocFind m.body_ k with
  | none => rw [((erase_of_absent hInv hv).2) k]; exact hv
  | some v => exact (erase_spec_mem hInv hv).2.2.1

theorem opIndexGet_of_mem [Inhabited V] {m : HashMap K V} (hInv : Inv m) {k : K} {v : V}
    (hv : assocFind m.body_ k = some v) : (m.opIndexGet k).2 = v := by
  have hv' : assocFind m.enlarge_hashtable_if_needed.body_ k = some v := by
    rw [assoc_enlarge hInv k]
    exact hv
  obtain ⟨h1, h2⟩ := indexCore_of_mem (Inv_enlarge hInv) hv'
  unfold HashMap.opIndexGet HashMap.opIndex
  dsimp only
  rw [h1, h2]
  rfl

theorem assoc_opIndexSet [Inhabited V] {m : HashMap K V} (hInv : Inv m) (k : K) (v : V)
    (k' : K) :
    assocFind (m.opIndexSet k v).body_ k' =
      if k' = k then some v else assocFind m.body_ k' := by
  unfold HashMap.opIndexSet
  rw [indexAssign_assoc (Inv_enlarge hInv) k v k']
  by_cases hk' : k' = k
  · rw [if_pos hk', if_pos hk']
  · rw [if_neg hk', if_neg hk']
    exact assoc_enlarge hInv k'

/-! ### Reachable states -/

/-- The states a container can be in: built by a constructor and transformed
by the public mutating operations. -/
inductive Reachable [Inhabited V] : HashMap K V → Prop where
  | empty (h : K → Nat) : Reachable (mkHashMap h)
  | idxSet {m : HashMap K V} (k : K) (v : V) : Reachable m → Reachable (m.opIndexSet k v)
  | idxRead {m : HashMap K V} (k : K) : Reachable m → Reachable (m.opIndex k).1
  | ins {m : HashMap K V} (p : K × V) : Reachable m → Reachable (m.insert p)
  | ers {m : HashMap K V} (k : K) : Reachable m → Reachable (m.erase k)
  | clr {m : HashMap K V} : Reachable m → Reachable m.clear

theorem Inv_mkHashMap (h : K → Nat) : Inv (mkHashMap h : HashMap K V) := by
  refine ⟨Nat.one_pos, by simp [mkHashMap], by simp [mkHashMap], rfl, List.nodup_nil,
    ?_, ?_, ?_, ?_⟩
  · intro i hi
    simp [mkHashMap, HashMap.iterAt, HashMap.cntAt, replicate_zero_getD]
  · intro i hi t ht p hp
    simp only [mkHashMap, HashMap.cntAt] at ht
    rw [replicate_zero_getD] at ht
    omega
  · intro q p hq
    simp [mkHashMap] at hq
  · intro i hi hc
    simp [mkHashMap, HashMap.iterAt, replicate_zero_getD]

theorem Reachable_Inv [Inhabited V] {m : HashMap K V} (h : Reachable m) : Inv m := by
  induction h with
  | empty h => exact Inv_mkHashMap h
  | idxSet k v _ ih => exact Inv_opIndexSet ih k v
  | idxRead k _ ih => exact Inv_opIndexFst ih k
  | ins p _ ih => exact Inv_insert ih p
  | ers k _ ih => exact Inv_erase ih k
  | clr _ ih => exact Inv_clear ih

/-! ### Sequences of `insert` calls -/

theorem Inv_insertList [Inhabited V] {m : HashMap K V} (hInv : Inv m)
    (l : List (K × V)) : Inv (insertList m l) := by
  induction l generalizing m with
  | nil => exact hInv
  | cons p l ih => exact ih (Inv_insert hInv p)

/-- Folding `insert` keeps existing entries and adds the first occurrence of
each new key. -/
theorem assoc_insertList [Inhabited V] {m : HashMap K V} (hInv : Inv m)
    (l : List (K × V)) (k : K) :
    assocFind (insertList m l).body_ k = (assocFind m.body_ k).or (assocFind l k) := by
  induction l generalizing m with
  | nil => simp [insertList, assocFind]
  | cons p l ih =>
    unfold insertList
    rw [List.foldl_cons]
    have hstep := ih (Inv_insert hInv p)
    unfold insertList at hstep
    rw [hstep, assocFind_cons]
    by_cases hmem : p.1 ∈ m.body_.map Prod.fst
    · rw [insert_assoc_of_mem hInv hmem k]
      by_cases hpk : p.1 = k
      · obtain ⟨v0, hv0⟩ := Option.isSome_iff_exists.1
          ((assocFind_isSome_iff _ _).2 (hpk ▸ hmem))
        rw [hv0, if_pos hpk]
        rfl
      · rw [if_neg hpk]
    · by_cases hpk : p.1 = k
      · subst hpk
        rw [insert_assoc_of_absent_self hInv hmem]
        have hnone : assocFind m.body_ p.1 = none :=
          (assocFind_eq_none_iff _ _).2 hmem
        rw [hnone, if_pos rfl, Option.none_or]
        rfl
      · rw [insert_assoc_of_absent_ne hInv hmem hpk, if_neg hpk]

/-! ### Bulk construction (`fromList`) -/

theorem Inv_foldl_opIndexSet [Inhabited V] {m : HashMap K V} (hInv : Inv m)
    (l : List (K × V)) :
    Inv (l.foldl (fun acc p => acc.opIndexSet p.1 p.2) m) := by
  induction l generalizing m with
  | nil => exact hInv
  | cons p l ih => exact ih (Inv_opIndexSet hInv p.1 p.2)

theorem assoc_foldl_opIndexSet [Inhabited V] {m : HashMap K V} (hInv : Inv m)
    (l : List (K × V)) (k : K) :
    assocFind (l.foldl (fun acc p => acc.opIndexSet p.1 p.2) m).body_ k =
      (lastWins l k).or (assocFind m.body_ k) := by
  induction l generalizing m with
  | nil => simp [lastWins]
  | cons p l ih =>
    rw [List.foldl_cons, ih (Inv_opIndexSet hInv p.1 p.2), lastWins_cons,
      Option.or_assoc]
    congr 1
    rw [assoc_opIndexSet hInv p.1 p.2 k]
    by_cases h : k = p.1
    · rw [if_pos h, if_pos h.symm]
      rfl
    · rw [if_neg h, if_neg (fun he => h he.symm), Option.none_or]

theorem Inv_fromList [Inhabited V] (f : K → Nat) (l : List (K × V)) :
    Inv (fromList f l) :=
  Inv_foldl_opIndexSet (Inv_mkHashMap f) l

theorem assoc_fromList [Inhabited V] (f : K → Nat) (l : List (K × V)) (k : K) :
    assocFind (fromList f l).body_ k = lastWins l k := by
  unfold fromList
  rw [assoc_foldl_opIndexSet (Inv_mkHashMap f) l k]
  have hempty : assocFind (mkHashMap (V := V) f).body_ k = none := rfl
  rw [hempty, Option.or_none]

theorem mem_keys_fromList [Inhabited V] (f : K → Nat) (l : List (K × V)) (k : K) :
    k ∈ (fromList f l).body_.map Prod.fst ↔ k ∈ l.map Prod.fst := by
  rw [← assocFind_isSome_iff, assoc_fromList, lastWins_isSome_iff]

theorem insertCore_cap (m : HashMap K V) (p : K × V) :
    (m.insertCore p).hash_map_capacity_ = m.hash_map_capacity_ := by
  unfold HashMap.insertCore
  dsimp only
  rcases hs : scanFrom m.body_ (m.iterAt (m.bucket p.1)) (m.cntAt (m.bucket p.1)) p.1
    with _ | t <;> rfl

/-! ### The claims -/

/-- C1: Round trip — applying any sequence of `insert(k, v)` calls with
pairwise-distinct keys to an initially empty container makes `at(k)` return
exactly the inserted value `v` (as `Except.ok v`), and `operator[](k)` return
exactly `v`, for every inserted pair, at every container size including sizes
crossing capacity-doubling growth thresholds (the list is arbitrary, so all
sizes and growth cycles are covered). -/
theorem C1_round_trip [Inhabited V] (f : K → Nat) (l : List (K × V))
    (hnd : (l.map Prod.fst).Nodup) {k : K} {v : V} (hmem : (k, v) ∈ l) :
    (insertList (mkHashMap f) l).atVal k = Except.ok v ∧
    ((insertList (mkHashMap f) l).opIndexGet k).2 = v := by
  have hInv := Inv_insertList (Inv_mkHashMap f) l
  have hass : assocFind (insertList (mkHashMap f) l).body_ k = some v := by
    rw [assoc_insertList (Inv_mkHashMap f) l k]
    have hempty : assocFind (mkHashMap (V := V) f).body_ k = none := rfl
    rw [hempty, Option.none_or]
    exact assocFind_eq_some_of_mem hnd hmem
  exact ⟨atVal_of_mem hInv hass, opIndexGet_of_mem hInv hass⟩

/-- Witness for C1 at a concrete input whose insertion sequence crosses the
growth thresholds 1, 2 and 4 (final capacity 8). -/
theorem C1_witness :
    (insertList (mkHashMap id) [(0, 10), (1, 11), (2, 12), (3, 13), (4, 14)]
      : HashMap Nat Nat).hash_map_capacity_ = 8 ∧
    ((insertList (mkHashMap id) [(0, 10), (1, 11), (2, 12), (3, 13), (4, 14)]
      : HashMap Nat Nat).atVal 3 = Except.ok 13 ∧
     ((insertList (mkHashMap id) [(0, 10), (1, 11), (2, 12), (3, 13), (4, 14)]
      : HashMap Nat Nat).opIndexGet 3).2 = 13) :=
  ⟨by decide, C1_round_trip id [(0, 10), (1, 11), (2, 12), (3, 13), (4, 14)]
    (by decide) (by decide)⟩

/-- The bucket-contiguity invariant as stated by the specification: for every
bucket `i`, exactly `sizes_[i]` entries of `body_`, starting at `iters_[i]`
and proceeding forward, have `hash(key) % capacity = i`; no entry outside
that contiguous run does; and `sizes_[i] = 0` forces `iters_[i] = end()`. -/
def BucketInv (m : HashMap K V) : Prop :=
  ∀ i, i < m.hash_map_capacity_ →
    (m.iterAt i + m.cntAt i ≤ m.body_.length) ∧
    (∀ t, t < m.cntAt i → ∀ p, m.body_.get? (m.iterAt i + t) = some p →
      m.hash p.1 % m.hash_map_capacity_ = i) ∧
    (∀ q p, m.body_.get? q = some p → m.hash p.1 % m.hash_map_capacity_ = i →
      m.iterAt i ≤ q ∧ q < m.iterAt i + m.cntAt i) ∧
    (m.cntAt i = 0 → m.iterAt i = m.endIter)

/-- C2: Bucket-contiguity invariant — every state reachable from an empty
container by `operator[]`, `insert`, `erase`, `clear` (growth happens inside
those operations) satisfies `BucketInv`. -/
theorem C2_bucket_invariant [Inhabited V] {m : HashMap K V} (hr : Reachable m) :
    BucketInv m := by
  have hInv := Reachable_Inv hr
  intro i hi
  refine ⟨hInv.run_le i hi, ?_, ?_, hInv.empty_end i hi⟩
  · intro t ht p hp
    exact hInv.run_mem i hi t ht p hp
  · intro q p hq hb
    have hbp : m.bucket p.1 = i := hb
    have hmr := hInv.mem_run q p hq
    rw [hbp] at hmr
    exact hmr

/-- Witness for C2: a concrete reachable state (two inserts, one erase, one
`operator[]` write, with colliding buckets) satisfies the invariant. -/
theorem C2_witness :
    BucketInv ((((((mkHashMap (fun n => n % 2) : HashMap Nat Nat).insert
      (1, 10)).insert (2, 20)).insert (3, 30)).opIndexSet 5 50).erase 3) :=
  C2_bucket_invariant
    (Reachable.ers 3 (Reachable.idxSet 5 50 (Reachable.ins (3, 30)
      (Reachable.ins (2, 20) (Reachable.ins (1, 10)
        (Reachable.empty (fun n => n % 2)))))))

/-- C3: Erase correctness — in every reachable state, after `erase(k)`:
`find(k)` returns the end iterator; `size()` drops by exactly one when `k`
was present (and the size was positive); `size()` is unchanged when `k` was
absent; and the mapping of every other key is untouched. -/
theorem C3_erase_correct [Inhabited V] {m : HashMap K V} (hr : Reachable m) (k : K) :
    ((m.erase k).find k = (m.erase k).endIter) ∧
    (∀ v, assocFind m.body_ k = some v →
      (m.erase k).size = m.size - 1 ∧ 0 < m.size) ∧
    (assocFind m.body_ k = none → (m.erase k).size = m.size) ∧
    (∀ k', k' ≠ k → assocFind (m.erase k).body_ k' = assocFind m.body_ k') := by
  have hInv := Reachable_Inv hr
  have hInv' := Inv_erase hInv k
  refine ⟨?_, ?_, ?_, ?_⟩
  · refine find_of_absent hInv' ?_
    rw [← assocFind_eq_none_iff]
    exact erase_assoc_self hInv k
  · intro v hv
    exact ⟨(erase_spec_mem hInv hv).1, (erase_spec_mem hInv hv).2.1⟩
  · intro h
    exact (erase_of_absent hInv h).1
  · intro k' hk'
    cases hv : assocFind m.body_ k with
    | none => exact (erase_of_absent hInv hv).2 k'
    | some v => exact (erase_spec_mem hInv hv).2.2.2 k' hk'

/-- Witness for C3 at a concrete reachable container and key. -/
theorem C3_witness :
    ((((mkHashMap id : HashMap Nat Nat).insert (1, 10)).insert (2, 20)).erase 1).find 1 =
      ((((mkHashMap id : HashMap Nat Nat).insert (1, 10)).insert (2, 20)).erase 1).endIter ∧
    ((((mkHashMap id : HashMap Nat Nat).insert (1, 10)).insert (2, 20)).erase 1).size =
      (((mkHashMap id : HashMap Nat Nat).insert (1, 10)).insert (2, 20)).size - 1 :=
  ⟨(C3_erase_correct (Reachable.ins (2, 20) (Reachable.ins (1, 10)
      (Reachable.empty id))) 1).1,
   ((C3_erase_correct (Reachable.ins (2, 20) (Reachable.ins (1, 10)
      (Reachable.empty id))) 1).2.1 10 (by decide)).1⟩

/-- C4: Growth algorithm — `operator[]`, `insert` and `erase` each run the
growth check first (definitional equalities below); the check rebuilds
exactly when the live count has reached the capacity (it is the identity
below capacity); the rebuild doubles the capacity (`RESIZE_FACTOR = 2`),
starts from a table whose every bucket is `{sentinel, 0}`, reinserts every
element, and preserves the observable key-to-value mapping and the size. -/
theorem C4_growth [Inhabited V] {m : HashMap K V} (hr : Reachable m) (k : K) (p : K × V) :
    (m.insert p = m.enlarge_hashtable_if_needed.insertCore p) ∧
    (m.erase k = m.enlarge_hashtable_if_needed.eraseCore k) ∧
    ((m.opIndex k).1 = (m.enlarge_hashtable_if_needed.indexCore k).1) ∧
    (m.size < m.hash_map_capacity_ → m.enlarge_hashtable_if_needed = m) ∧
    (∀ i, i < m.hash_map_capacity_ * RESIZE_FACTOR →
      ({ m with
          hash_map_capacity_ := m.hash_map_capacity_ * RESIZE_FACTOR
          body_ := []
          iters_ := List.replicate (m.hash_map_capacity_ * RESIZE_FACTOR) 0
          sizes_ := List.replicate (m.hash_map_capacity_ * RESIZE_FACTOR) 0
          hash_map_size_ := 0 } : HashMap K V).cntAt i = 0 ∧
      ({ m with
          hash_map_capacity_ := m.hash_map_capacity_ * RESIZE_FACTOR
          body_ := []
          iters_ := List.replicate (m.hash_map_capacity_ * RESIZE_FACTOR) 0
          sizes_ := List.replicate (m.hash_map_capacity_ * RESIZE_FACTOR) 0
          hash_map_size_ := 0 } : HashMap K V).iterAt i =
        ({ m with
          hash_map_capacity_ := m.hash_map_capacity_ * RESIZE_FACTOR
          body_ := []
          iters_ := List.replicate (m.hash_map_capacity_ * RESIZE_FACTOR) 0
          sizes_ := List.replicate (m.hash_map_capacity_ * RESIZE_FACTOR) 0
          hash_map_size_ := 0 } : HashMap K V).endIter) ∧
    (m.hash_map_capacity_ ≤ m.size →
      m.enlarge_hashtable_if_needed.hash_map_capacity_ = 2 * m.hash_map_capacity_ ∧
      m.enlarge_hashtable_if_needed.hash_map_size_ = m.hash_map_size_ ∧
      ∀ k', assocFind m.enlarge_hashtable_if_needed.body_ k' = assocFind m.body_ k') := by
  have hInv := Reachable_Inv hr
  refine ⟨rfl, rfl, rfl, fun h => enlarge_of_lt h, ?_, ?_⟩
  · intro i hi
    refine ⟨?_, ?_⟩
    · unfold HashMap.cntAt
      exact replicate_zero_getD _ _
    · unfold HashMap.iterAt HashMap.endIter
      rw [replicate_zero_getD]
      rfl
  · intro hge
    obtain ⟨_, h2, _, h4, h5⟩ := enlarge_spec_ge hInv hge
    refine ⟨?_, h4, h5⟩
    rw [h2]
    omega

/-- Witness for C4 at a concrete reachable state at full load
(size = capacity = 2). -/
theorem C4_witness :
    (((mkHashMap id : HashMap Nat Nat).insert (1, 10)).insert (2, 20)).hash_map_capacity_ ≤
      (((mkHashMap id : HashMap Nat Nat).insert (1, 10)).insert (2, 20)).size ∧
    (((mkHashMap id : HashMap Nat Nat).insert (1, 10)).insert
        (2, 20)).enlarge_hashtable_if_needed.hash_map_capacity_ =
      2 * (((mkHashMap id : HashMap Nat Nat).insert (1, 10)).insert (2, 20)).hash_map_capacity_ :=
  ⟨by decide,
   ((C4_growth (Reachable.ins (2, 20) (Reachable.ins (1, 10) (Reachable.empty id)))
      0 (0, 0)).2.2.2.2.2 (by decide)).1⟩

/-- C5: `at` error handling — in every reachable state, `at(k)` returns the
stored value when `k` is present and fails with the `std::out_of_range`
error (modelled as `Except.error "Out of range error"`) exactly when `k` has
no entry.  `at` is modelled as a pure function of the state — it takes no
growth step and performs no mutation by construction — and it is the only
operation whose result type admits failure: `operator[]`, `insert`, `erase`,
`find` and `clear` all return total results. -/
theorem C5_at_error [Inhabited V] {m : HashMap K V} (hr : Reachable m) (k : K) :
    (∀ v, assocFind m.body_ k = some v → m.atVal k = Except.ok v) ∧
    (m.atVal k = Except.error "Out of range error" ↔ assocFind m.body_ k = none) := by
  have hInv := Reachable_Inv hr
  refine ⟨fun v hv => atVal_of_mem hInv hv, ?_, ?_⟩
  · intro herr
    cases hv : assocFind m.body_ k with
    | none => rfl
    | some v =>
      rw [atVal_of_mem hInv hv] at herr
      exact Except.noConfusion herr
  · intro hnone
    exact atVal_of_absent hInv hnone

/-- Witness for C5 at a concrete reachable state: present key returns its
value, absent key fails. -/
theorem C5_witness :
    (((mkHashMap id : HashMap Nat Nat).insert (1, 10)).atVal 1 = Except.ok 10) ∧
    (((mkHashMap id : HashMap Nat Nat).insert (1, 10)).atVal 2 =
      Except.error "Out of range error") :=
  ⟨(C5_at_error (Reachable.ins (1, 10) (Reachable.empty id)) 1).1 10 (by decide),
   (C5_at_error (Reachable.ins (1, 10) (Reachable.empty id)) 2).2.2 (by decide)⟩

/-- C6 as frozen is false: on a container already holding `(1, 5)`, running
`insert(1, 1); insert(1, 2)` leaves the value `5`, not `v1 = 1` — `insert`
never overwrites an existing entry. -/
theorem C6_counterexample :
    ¬ (((((mkHashMap id : HashMap Nat Nat).insert (1, 5)).insert (1, 1)).insert
        (1, 2)).atVal 1 = Except.ok 1) := by
  have h5 : ((((mkHashMap id : HashMap Nat Nat).insert (1, 5)).insert (1, 1)).insert
      (1, 2)).atVal 1 = Except.ok 5 := by rfl
  intro h
  rw [h5] at h
  exact absurd h (by simp)

/-- C6 (amended): in every reachable state, if `k` is absent then
`insert(k, v1); insert(k, v2)` stores `v1` for `k` (the second insert is a
no-op); and whenever `k` is already present with value `v0`, `insert(k, v)`
changes neither the value stored for `k` nor `size()`. -/
theorem C6_insert_idempotent [Inhabited V] {m : HashMap K V} (hr : Reachable m)
    (k : K) (v1 v2 : V) :
    (k ∉ m.body_.map Prod.fst →
      assocFind ((m.insert (k, v1)).insert (k, v2)).body_ k = some v1) ∧
    (∀ v0, assocFind m.body_ k = some v0 →
      assocFind (m.insert (k, v2)).body_ k = some v0 ∧
      (m.insert (k, v2)).size = m.size) := by
  have hInv := Reachable_Inv hr
  refine ⟨?_, ?_⟩
  · intro habs
    have h1 : assocFind (m.insert (k, v1)).body_ k = some v1 :=
      insert_assoc_of_absent_self hInv habs
    have hmem1 : k ∈ (m.insert (k, v1)).body_.map Prod.fst := by
      rw [← assocFind_isSome_iff, h1]
      rfl
    rw [insert_assoc_of_mem (Inv_insert hInv (k, v1)) hmem1 k]
    exact h1
  · intro v0 hv0
    have hmem : k ∈ m.body_.map Prod.fst := by
      rw [← assocFind_isSome_iff, hv0]
      rfl
    refine ⟨?_, insert_size_of_mem hInv hmem⟩
    rw [insert_assoc_of_mem hInv hmem k]
    exact hv0

/-- Witness for C6 (amended) at a concrete reachable state. -/
theorem C6_witness :
    assocFind (((mkHashMap id : HashMap Nat Nat).insert (1, 7)).insert (1, 9)).body_ 1 =
      some 7 :=
  (C6_insert_idempotent (Reachable.empty id) 1 7 9).1 (by decide)

/-- C7: `clear` postcondition — in every reachable state, after `clear()` the
body is empty, the live counter is 0, every bucket (in particular every
bucket that held an entry) has count 0 and start equal to the end sentinel,
and consequently `find` returns `end()` and `at` fails for every key. -/
theorem C7_clear [Inhabited V] {m : HashMap K V} (hr : Reachable m) :
    (m.clear).body_ = [] ∧
    (m.clear).size = 0 ∧
    (∀ i, i < m.hash_map_capacity_ →
      (m.clear).cntAt i = 0 ∧ (m.clear).iterAt i = (m.clear).endIter) ∧
    (∀ k, (m.clear).find k = (m.clear).endIter ∧
      (m.clear).atVal k = Except.error "Out of range error") := by
  have hInv := Reachable_Inv hr
  refine ⟨clear_body m, clear_size m, ?_, ?_⟩
  · intro i hi
    exact clear_buckets hInv i hi
  · intro k
    refine ⟨find_of_absent (Inv_clear hInv) ?_, atVal_of_absent (Inv_clear hInv) rfl⟩
    rw [clear_body]
    simp

/-- Witness for C7 at a concrete reachable state grown beyond one bucket. -/
theorem C7_witness :
    ((((mkHashMap id : HashMap Nat Nat).insert (1, 10)).insert (2, 20)).clear).size = 0 ∧
    ((((mkHashMap id : HashMap Nat Nat).insert (1, 10)).insert (2, 20)).clear).find 1 =
      ((((mkHashMap id : HashMap Nat Nat).insert (1, 10)).insert (2, 20)).clear).endIter :=
  ⟨(C7_clear (Reachable.ins (2, 20) (Reachable.ins (1, 10) (Reachable.empty id)))).2.1,
   ((C7_clear (Reachable.ins (2, 20) (Reachable.ins (1, 10)
      (Reachable.empty id)))).2.2.2 1).1⟩

/-- C8: Literal-list construction — building a container from a list of
pairs yields one entry per distinct key (the stored keys are pairwise
distinct, and a key is stored iff it occurs in the list), each key mapped to
the value of its last occurrence; in particular the list
`[(1, "x"), (1, "y"), (2, "z")]` yields `size() = 2`, `at(1) = "y"` and
`at(2) = "z"`. -/
theorem C8_fromList_lastWins :
    (∀ (f : Nat → Nat) (l : List (Nat × String)) (k : Nat),
      assocFind (fromList f l : HashMap Nat String).body_ k = lastWins l k ∧
      ((fromList f l : HashMap Nat String).body_.map Prod.fst).Nodup ∧
      (k ∈ (fromList f l : HashMap Nat String).body_.map Prod.fst ↔
        k ∈ l.map Prod.fst)) ∧
    ((fromList id [(1, "x"), (1, "y"), (2, "z")] : HashMap Nat String).size = 2 ∧
     (fromList id [(1, "x"), (1, "y"), (2, "z")] : HashMap Nat String).atVal 1 =
       Except.ok "y" ∧
     (fromList id [(1, "x"), (1, "y"), (2, "z")] : HashMap Nat String).atVal 2 =
       Except.ok "z") := by
  refine ⟨?_, by decide, by rfl, by rfl⟩
  intro f l k
  exact ⟨assoc_fromList f l k, (Inv_fromList f l).nodup, mem_keys_fromList f l k⟩

/-- C9: Size/emptiness consistency — in every reachable state, `size() = 0`
iff `empty()` is true iff iterating from `begin()` to `end()` yields nothing. -/
theorem C9_size_empty [Inhabited V] {m : HashMap K V} (hr : Reachable m) :
    (m.size = 0 ↔ m.isEmpty = true) ∧ (m.isEmpty = true ↔ m.toList = []) := by
  have hInv := Reachable_Inv hr
  have hsz : m.size = m.body_.length := hInv.size_eq
  unfold HashMap.isEmpty HashMap.toList
  constructor
  · rw [hsz, List.isEmpty_iff, List.length_eq_zero]
  · rw [List.isEmpty_iff]

/-- Witness for C9: an empty and a nonempty reachable state. -/
theorem C9_witness :
    ((((mkHashMap id : HashMap Nat Nat).insert (1, 10)).erase 1).size = 0 ↔
      (((mkHashMap id : HashMap Nat Nat).insert (1, 10)).erase 1).isEmpty = true) ∧
    ((((mkHashMap id : HashMap Nat Nat).insert (1, 10)).erase 1).isEmpty = true ↔
      (((mkHashMap id : HashMap Nat Nat).insert (1, 10)).erase 1).toList = []) :=
  C9_size_empty (Reachable.ers 1 (Reachable.ins (1, 10) (Reachable.empty id)))

/-- C10: `clear()` leaves `hash_map_capacity_` unchanged, for every state —
and the other mutators change it only through `enlarge_hashtable_if_needed`
(their post-growth bodies preserve it). -/
theorem C10_clear_capacity (m : HashMap K V) (k : K) (v : V) (p : K × V) :
    (m.clear).hash_map_capacity_ = m.hash_map_capacity_ ∧
    (m.insertCore p).hash_map_capacity_ = m.hash_map_capacity_ ∧
    (m.eraseCore k).hash_map_capacity_ = m.hash_map_capacity_ ∧
    ∀ [Inhabited V],
      ((m.indexAssign k v).hash_map_capacity_ = m.hash_map_capacity_) := by
  refine ⟨clear_cap m, insertCore_cap m p, eraseCore_cap m k, ?_⟩
  intro _
  exact indexAssign_cap m k v

end HashMapVerif
